import Mathlib

/-!
Verification of the immigration-assistant document pipeline
(`src/chunk_parsed_to_jsonl.py`, `src/parse_html_to_json.py`).

Conventions of the embedding:
* Python strings are modelled as `List Char` (a Python `str` is a sequence
  of code points).
* The chunk packer `make_chunks_from_paragraphs` never inspects the
  characters of a word: it splits paragraphs into words, counts words,
  joins words with single spaces, and slices word lists.  We therefore
  embed it at the word level: a paragraph is a `List α` of words, a chunk
  is a `List α`, and the `" ".join` / `str.split` round-trips become
  `List.flatten`.  Under this correspondence `clean_text p` is the identity
  on word lists (an already-cleaned paragraph string is exactly the
  single-space join of its nonempty, whitespace-free words) and
  `word_count` is `List.length`.
* Python `while` loops are embedded as fuel-based recursion with fuel that
  is provably sufficient (each iteration consumes at least one unit).
-/

set_option maxRecDepth 100000

/-- `TARGET_WORDS = 350` (chunk_parsed_to_jsonl.py line 12). -/
def TARGET_WORDS : Nat := 350

/-- `MAX_WORDS = 500` (chunk_parsed_to_jsonl.py line 13). -/
def MAX_WORDS : Nat := 500

/-- `OVERLAP_WORDS = 60` (chunk_parsed_to_jsonl.py line 14). -/
def OVERLAP_WORDS : Nat := 60

/-- The hard-split `while start < len(words)` loop of
`make_chunks_from_paragraphs` (lines 189-195), at the word level and on the
suffix `words[start:]`.  One iteration emits `words[start:start+MAX_WORDS]`
(clipped at the end of the paragraph) and advances `start` by
`MAX_WORDS - OVERLAP_WORDS` words unless the window reached the end.  The
fuel only bounds the number of iterations; `hardSplit` supplies
`words.length`, which is sufficient because each iteration consumes at
least one word. -/
def hardSplitGo {α : Type} (fuel : Nat) (words : List α) : List (List α) :=
  match fuel with
  | 0 => []
  | fuel + 1 =>
    if words.isEmpty then []
    else
      words.take MAX_WORDS ::
        (if words.length ≤ MAX_WORDS then []
         else hardSplitGo fuel (words.drop (MAX_WORDS - OVERLAP_WORDS)))

/-- Hard-splitting a paragraph of more than `MAX_WORDS` words
(`make_chunks_from_paragraphs` lines 188-196). -/
def hardSplit {α : Type} (words : List α) : List (List α) :=
  hardSplitGo words.length words

/-- The mutable state of the paragraph-packing loop: emitted `chunks`, the
accumulator `cur` (a list of paragraphs, each a word list) and the running
word count `cur_words`. -/
structure PackState (α : Type) where
  chunks : List (List α)
  cur : List (List α)
  curWords : Nat

/-- The trailing `OVERLAP_WORDS` words of a word list: Python
`words[-overlap_words:]` (when the list is shorter than `OVERLAP_WORDS`
this is the whole list). -/
def lastOv {α : Type} (c : List α) : List α := c.drop (c.length - OVERLAP_WORDS)

/-- Flushing the accumulator with overlap carry-over
(`make_chunks_from_paragraphs` lines 200-207 and 214-220, which are
identical).  `" ".join(cur)` is `cur.flatten` at the word level; the seed
kept for the next chunk is its trailing `OVERLAP_WORDS` words
(`[-overlap_words:]`, i.e. `lastOv`), stored as a single pseudo-paragraph.
The code's `overlap_words > 0` guard is always taken since
`OVERLAP_WORDS = 60`; `cur = [" ".join(last_words)] if last_words else []`
and the matching `cur_words` update are modelled by the `isEmpty` test
(note `seed.length = 0` in the empty case, as in the code). -/
def flushCur {α : Type} (st : PackState α) : PackState α :=
  let joined := st.cur.flatten
  let seed := lastOv joined
  { chunks := st.chunks ++ [joined]
    cur := if seed.isEmpty then [] else [seed]
    curWords := seed.length }

/-- One iteration of the `for p in paras` loop of
`make_chunks_from_paragraphs` (lines 181-220).  An empty cleaned paragraph
is skipped (`if not p: continue`); a paragraph of more than `MAX_WORDS`
words is hard-split into windows that are emitted directly, bypassing the
accumulator (`continue` on line 196 - note the accumulator is *not*
flushed first); otherwise the accumulator is pre-flushed when adding the
paragraph would exceed `MAX_WORDS` (line 199), the paragraph is appended,
and the accumulator is flushed once it reaches `TARGET_WORDS`
(line 213). -/
def packStep {α : Type} (st : PackState α) (p : List α) : PackState α :=
  if p.isEmpty then st
  else if MAX_WORDS < p.length then
    { st with chunks := st.chunks ++ hardSplit p }
  else
    let st1 :=
      if st.cur.isEmpty = true ∨ st.curWords + p.length ≤ MAX_WORDS then st
      else flushCur st
    let st2 : PackState α :=
      { st1 with cur := st1.cur ++ [p], curWords := st1.curWords + p.length }
    if TARGET_WORDS ≤ st2.curWords then flushCur st2 else st2

/-- `make_chunks_from_paragraphs` (lines 172-227) at the word level, with
the default sizing parameters.  After the paragraph loop the leftover
accumulator is flushed (line 222-223) and empty chunks are dropped by the
final cleanup (line 226; `clean_text` is the identity on the space-joined
chunks, so it only filters out empties). -/
def makeChunksFromParagraphs {α : Type} (paras : List (List α)) : List (List α) :=
  let st := paras.foldl packStep { chunks := [], cur := [], curWords := 0 }
  let chunks := if st.cur.isEmpty then st.chunks else st.chunks ++ [st.cur.flatten]
  chunks.filter (fun c => !c.isEmpty)

/-- The concatenated word content held by a packing state: emitted chunks
followed by the accumulator. -/
def stConcat {α : Type} (st : PackState α) : List α :=
  st.chunks.flatten ++ st.cur.flatten

/-- Chunk `b` begins with the trailing `OVERLAP_WORDS` words of chunk `a`:
the overlap carried forward by the packer. -/
def overlapNext {α : Type} (a b : List α) : Prop :=
  b.take (lastOv a).length = lastOv a

/-- Every adjacent pair of chunks in the list satisfies `overlapNext`. -/
def adjOK {α : Type} : List (List α) → Prop
  | [] => True
  | [_] => True
  | a :: b :: rest => overlapNext a b ∧ adjOK (b :: rest)

/-- Loop invariant for the word-count bound: the tracked `cur_words` is the
word count of the accumulator, it is below `TARGET_WORDS` between
iterations, and every emitted chunk has at most
`MAX_WORDS + OVERLAP_WORDS` words. -/
def PackInvB {α : Type} (st : PackState α) : Prop :=
  st.curWords = st.cur.flatten.length ∧
  st.curWords < TARGET_WORDS ∧
  ∀ c ∈ st.chunks, c.length ≤ MAX_WORDS + OVERLAP_WORDS

/-- Loop invariant for the overlap property (maintained when no paragraph
exceeds `MAX_WORDS`, so the hard-split branch never fires): chunks and
accumulator entries are nonempty, the accumulator is nonempty whenever a
chunk has been emitted, adjacent emitted chunks overlap, and the
accumulator's content begins with the trailing overlap of the last emitted
chunk. -/
def PackInvC {α : Type} (st : PackState α) : Prop :=
  (∀ c ∈ st.chunks, c ≠ []) ∧
  (∀ q ∈ st.cur, q ≠ []) ∧
  (st.chunks ≠ [] → st.cur ≠ []) ∧
  adjOK st.chunks ∧
  (∀ c, st.chunks.getLast? = some c → ∃ t, st.cur.flatten = lastOv c ++ t)

/-!
Character-level embedding of the cleaning layer of
`chunk_parsed_to_jsonl.py`.  Python strings are `List Char`.
-/

/-- Python `\s` as used by `re` and `str.strip`/`str.split` on the inputs
at hand (the ASCII whitespace characters). -/
def pyIsSpace (c : Char) : Bool :=
  c = ' ' || c = '\t' || c = '\n' || c = '\r' || c = '\x0b' || c = '\x0c'

/-- Python `str.strip()`: remove leading and trailing whitespace. -/
def pyStrip (cs : List Char) : List Char :=
  ((cs.dropWhile pyIsSpace).reverse.dropWhile pyIsSpace).reverse

/-- Collapse runs of the character `t` to a single occurrence.  With all
whitespace first mapped to `t = ' '`, this is `re.sub(r"\s+", " ", s)`;
with `t = '_'` it is the run-collapsing of `slugify`. -/
def squeezeRuns (t : Char) : List Char → List Char
  | [] => []
  | [c] => [c]
  | c :: d :: rest =>
    if c = t ∧ d = t then squeezeRuns t (d :: rest)
    else c :: squeezeRuns t (d :: rest)

/-- `clean_text` (chunk_parsed_to_jsonl.py lines 66-69): replace NBSP by a
space, collapse every whitespace run to a single space
(`WHITESPACE_RE.sub(" ", s)`), and strip. -/
def cleanText (s : List Char) : List Char :=
  pyStrip (squeezeRuns ' '
    ((s.map (fun c => if c = '\xa0' then ' ' else c)).map
      (fun c => if pyIsSpace c then ' ' else c)))

/-- Python `\w` on the ASCII range (`[A-Za-z0-9_]`).  The junk patterns
and every input exercised here are ASCII, so the Unicode extension of
`\w` is not needed. -/
def isWordChar (c : Char) : Bool := c.isAlphanum || c = '_'

/-- Python `str.lower()` on the ASCII range (non-ASCII characters are left
unchanged; the junk patterns and the concrete inputs exercised here are
ASCII). -/
def pyLower (c : Char) : Char := c.toLower

/-- Whether position `i` of `s` holds a word character (positions outside
the string count as non-word). -/
def charIsWordAt (s : List Char) (i : Nat) : Bool :=
  match s.drop i with
  | [] => false
  | c :: _ => isWordChar c

/-- `\b` at position `i` of `s`: exactly one of the two adjacent positions
holds a word character. -/
def boundaryAt (s : List Char) (i : Nat) : Bool :=
  (if i = 0 then false else charIsWordAt s (i - 1)) != charIsWordAt s i

/-- `re.search` of the pattern `\b<lit>\b` in `s`, for a literal `lit`. -/
def searchWB (lit : List Char) (s : List Char) : Bool :=
  (List.range (s.length + 1)).any (fun i =>
    lit.isPrefixOf (s.drop i) && boundaryAt s i && boundaryAt s (i + lit.length))

/-- `re.search` of `^<lit>$` in a string without newlines: equality with
the literal.  (`clean_text` output contains no newline, so the
`$`-before-final-newline subtlety of Python cannot arise.) -/
def searchExact (lit : List Char) (s : List Char) : Bool := s == lit

/-- `JUNK_HEADING_RE.search(h)` for an already lower-cased `h`
(chunk_parsed_to_jsonl.py lines 24-45).  The alternation is the listed
patterns in order; `\bpage functions?\b`, `\bcookies?\b` and
`\buser notes?\b` are expanded into their two literal alternatives, which
is equivalent for a `re.search` used only as a truth value. -/
def junkHeadingSearch (h : List Char) : Bool :=
  searchWB "site navigation".data h ||
  searchWB "service menu".data h ||
  searchWB "main menu".data h ||
  searchWB "you are here".data h ||
  searchWB "sitemap".data h ||
  searchWB "search".data h ||
  searchWB "page function".data h || searchWB "page functions".data h ||
  searchWB "link to social media".data h ||
  searchWB "note on the use of cookies".data h ||
  searchWB "cookie".data h || searchWB "cookies".data h ||
  searchWB "imprint".data h ||
  searchWB "data protection".data h ||
  searchWB "accessibility".data h ||
  searchWB "user note".data h || searchWB "user notes".data h ||
  searchExact "service".data h ||
  searchExact "topics".data h ||
  searchExact "texts and articles".data h ||
  searchExact "further information".data h ||
  searchExact "links".data h

/-- `heading_is_junk` (chunk_parsed_to_jsonl.py lines 80-84): clean, lower,
empty headings are junk, otherwise search the junk-heading patterns. -/
def headingIsJunk (heading : List Char) : Bool :=
  let h := (cleanText heading).map pyLower
  if h.isEmpty then true
  else junkHeadingSearch h

/-- `JUNK_TEXT_RE.search(t)` for an already lower-cased `t`
(chunk_parsed_to_jsonl.py lines 48-61).  `\bsubmen[u|ü]\b` is a character
class containing `u`, the literal `|` and `ü`, expanded into its three
alternatives. -/
def junkTextSearch (t : List Char) : Bool :=
  searchWB "accept cookies".data t ||
  searchWB "cookies make it easier".data t ||
  searchWB "go to:".data t ||
  searchWB "print page".data t ||
  searchWB "submenu".data t || searchWB "submen|".data t || searchWB "submenü".data t ||
  searchWB "facebook".data t || searchWB "instagram".data t || searchWB "linkedin".data t ||
  searchWB "threads".data t || searchWB "bluesky".data t || searchWB "mastodon".data t ||
  searchWB "xing".data t || searchWB "vimeo".data t ||
  searchWB "imprint".data t || searchWB "data protection".data t ||
  searchWB "accessibility".data t || searchWB "sitemap".data t ||
  searchWB "service for citizens".data t ||
  searchWB "service for other authorities".data t ||
  searchWB "annual report".data t ||
  searchWB "freedom of movement monitoring".data t

/-- `section_is_junk` (chunk_parsed_to_jsonl.py lines 139-151): junk
heading, empty cleaned text, or junky text patterns. -/
def sectionIsJunk (heading text : List Char) : Bool :=
  if headingIsJunk heading then true
  else
    let t := (cleanText text).map pyLower
    if t.isEmpty then true
    else if junkTextSearch t then true
    else false

/-- Index of the last `'\n'` in a character list, `none` when there is
none. -/
def lastNlPos : List Char → Option Nat
  | [] => none
  | c :: rest =>
    match lastNlPos rest with
    | some i => some (i + 1)
    | none => if c = '\n' then some 0 else none

/-- Whether the leftmost-longest match of `\n\s*\n` starts here: the
position holds `'\n'` and the maximal whitespace run from here contains a
second newline. -/
def sepAt (x : List Char) : Bool :=
  match x with
  | [] => false
  | c :: _ => c == '\n' && decide (2 ≤ (x.takeWhile pyIsSpace).count '\n')

/-- Length of the `\n\s*\n` match starting here (greedy `\s*` backtracks
to the last newline of the whitespace run). -/
def sepLen (x : List Char) : Nat :=
  match lastNlPos (x.takeWhile pyIsSpace) with
  | some i => i + 1
  | none => 0

/-- Scanner for `re.split(r"\n\s*\n", text)`.  `acc` is the current piece,
reversed.  The fuel only bounds the number of steps; each step consumes at
least one character, so `cs.length` is always sufficient. -/
def splitBlankGo (fuel : Nat) (cs : List Char) (acc : List Char) : List (List Char) :=
  match fuel, cs with
  | _, [] => [acc.reverse]
  | 0, _ :: _ => [acc.reverse]
  | fuel + 1, c :: rest =>
    if sepAt (c :: rest) then
      acc.reverse :: splitBlankGo fuel ((c :: rest).drop (sepLen (c :: rest))) []
    else
      splitBlankGo fuel rest (c :: acc)

/-- `re.split(r"\n\s*\n", text)` (used by `dedupe_paragraphs` line 128 and
`split_into_paragraphs` line 160). -/
def splitBlank (cs : List Char) : List (List Char) := splitBlankGo cs.length cs []

/-- The dedupe key of a paragraph (chunk_parsed_to_jsonl.py line 132):
`re.sub(r"\s+", " ", p.lower())`. -/
def dedupeKey (p : List Char) : List Char :=
  squeezeRuns ' ' ((p.map pyLower).map (fun c => if pyIsSpace c then ' ' else c))

/-- The `seen`/`out` loop of `dedupe_paragraphs` (lines 129-136); `seen`
is the set of keys already kept (list membership models the Python set). -/
def dedupeLoop : List (List Char) → List (List Char) → List (List Char)
  | [], _ => []
  | p :: rest, seen =>
    if dedupeKey p ∈ seen then dedupeLoop rest seen
    else p :: dedupeLoop rest (dedupeKey p :: seen)

/-- Python `"<sep>".join(pieces)`. -/
def joinSep (sep : List Char) : List (List Char) → List Char
  | [] => []
  | [p] => p
  | p :: q :: rest => p ++ sep ++ joinSep sep (q :: rest)

/-- `dedupe_paragraphs` (chunk_parsed_to_jsonl.py lines 124-137): split on
blank-line boundaries, strip each piece and drop the empty ones, drop
paragraphs whose key has been seen, join with a blank line, strip. -/
def dedupeParagraphs (text : List Char) : List Char :=
  let paras := ((splitBlank text).map pyStrip).filter (fun p => !p.isEmpty)
  pyStrip (joinSep "\n\n".data (dedupeLoop paras []))

/-- Python `str.splitlines()` boundaries, after `\r` has been normalised
away by `strip_inline_junk`: newline plus the other line breaks Python
recognises. -/
def isLineBreak (c : Char) : Bool :=
  c = '\n' || c = '\x0b' || c = '\x0c' || c = '\x1c' || c = '\x1d' || c = '\x1e' ||
  c = '\x85' || c = '\u2028' || c = '\u2029'

/-- Scanner for `str.splitlines()`.  Fuel as in `splitBlankGo`. -/
def splitLinesGo (fuel : Nat) (cs : List Char) (acc : List Char) : List (List Char) :=
  match fuel, cs with
  | _, [] => [acc.reverse]
  | 0, _ :: _ => [acc.reverse]
  | fuel + 1, c :: rest =>
    if isLineBreak c then acc.reverse :: splitLinesGo fuel rest []
    else splitLinesGo fuel rest (c :: acc)

/-- Python `str.splitlines()`: split at line breaks; a trailing line break
does not produce a final empty piece, and splitting the empty string gives
the empty list. -/
def splitLines (cs : List Char) : List (List Char) :=
  match cs with
  | [] => []
  | _ :: _ =>
    match cs.getLast? with
    | some c =>
      if isLineBreak c then (splitLinesGo cs.length cs []).dropLast
      else splitLinesGo cs.length cs []
    | none => splitLinesGo cs.length cs []

/-- `t.replace("\r\n", "\n").replace("\r", "\n")` (strip_inline_junk
line 96): CRLF pairs become one newline, then lone CRs become newlines. -/
def normalizeCrlf : List Char → List Char
  | [] => []
  | '\r' :: '\n' :: rest => '\n' :: normalizeCrlf rest
  | '\r' :: rest => '\n' :: normalizeCrlf rest
  | c :: rest => c :: normalizeCrlf rest

/-- Substring test (`needle in hay` for exact fragments). -/
def containsSubstr (needle hay : List Char) : Bool :=
  (List.range (hay.length + 1)).any (fun i => needle.isPrefixOf (hay.drop i))

/-- A line removed by the MULTILINE `^\s*https?://\S+\s*$` sub
(strip_inline_junk line 100), modelled line-wise: optional whitespace
around a single `http(s)://...` token.  The `\s*` of the original pattern
can additionally swallow adjacent blank lines, but the subsequent
blank-line filter (line 107) drops those anyway, so the kept lines are
identical. -/
def isUrlOnlyLine (ln : List Char) : Bool :=
  let s := pyStrip ln
  (("http://".data.isPrefixOf s && decide ("http://".data.length < s.length)) ||
   ("https://".data.isPrefixOf s && decide ("https://".data.length < s.length))) &&
  !(s.any pyIsSpace)

/-- A line blanked by the IGNORECASE cookie-banner subs
(strip_inline_junk lines 103-104). -/
def lineIsCookieBanner (ln : List Char) : Bool :=
  containsSubstr "cookies make it easier".data (ln.map pyLower) ||
  containsSubstr "accept cookies".data (ln.map pyLower)

/-- The language tokens of `LANG_SWITCH_RE` (line 64), lower-case. -/
def langTokens : List (List Char) :=
  ["deutsch".data, "english".data, "türkçe".data, "русский".data,
   "français".data, "العربية".data]

/-- `len(LANG_SWITCH_RE.findall(ln))`: number of non-overlapping leftmost
matches, trying the alternatives in order at each position; matching on
the lower-cased line models IGNORECASE (`pyLower` covers the range
exercised here). -/
def countMatchesGo (fuel : Nat) (pats : List (List Char)) (s : List Char) : Nat :=
  match fuel, s with
  | _, [] => 0
  | 0, _ :: _ => 0
  | fuel + 1, c :: rest =>
    match pats.find? (fun p => p.isPrefixOf (c :: rest)) with
    | some p => 1 + countMatchesGo fuel pats ((c :: rest).drop p.length)
    | none => countMatchesGo fuel pats rest

def countMatches (pats : List (List Char)) (s : List Char) : Nat :=
  countMatchesGo s.length pats s

/-- `re.sub(r"\n{3,}", "\n\n", t)` (strip_inline_junk line 121). -/
def squeezeNewlines : List Char → List Char
  | a :: b :: c :: rest =>
    if a = '\n' ∧ b = '\n' ∧ c = '\n' then squeezeNewlines (b :: c :: rest)
    else a :: squeezeNewlines (b :: c :: rest)
  | other => other

/-- `strip_inline_junk` (chunk_parsed_to_jsonl.py lines 86-122): quote and
newline normalisation, space/tab-run collapsing, removal of URL-only and
cookie-banner lines, dropping of blank lines, of short language-switcher
lines (shorter than 120 characters with at least 3 language-token hits)
and of `go to:` lines, rejoining with single newlines, collapsing triple
newlines and stripping. -/
def stripInlineJunk (text : List Char) : List Char :=
  if text.isEmpty then []
  else
    let t1 := text.map (fun c => if c = '“' ∨ c = '”' then '"' else c)
    let t2 := normalizeCrlf t1
    let t3 := squeezeRuns ' ' (t2.map (fun c => if c = '\t' then ' ' else c))
    let lines := (splitLines t3).map (fun ln =>
      if isUrlOnlyLine ln || lineIsCookieBanner ln then [] else ln)
    let lines2 := (lines.map pyStrip).filter (fun ln => !ln.isEmpty)
    let kept := lines2.filter (fun ln =>
      !(decide (ln.length < 120 ∧ 3 ≤ countMatches langTokens (ln.map pyLower)) ||
        "go to:".data.isPrefixOf ((ln.map pyLower).dropWhile pyIsSpace)))
    pyStrip (squeezeNewlines (joinSep ['\n'] kept))

/-- Scanner for `re.split(r"(?<=[\.\?\!])\s+", text)`: split at each
maximal whitespace run immediately preceded by `.`, `?` or `!`; `prev`
holds the previously consumed character for the lookbehind. -/
def splitSentGo (fuel : Nat) (cs : List Char) (prev : Option Char) (acc : List Char) :
    List (List Char) :=
  match fuel, cs with
  | _, [] => [acc.reverse]
  | 0, _ :: _ => [acc.reverse]
  | fuel + 1, c :: rest =>
    if pyIsSpace c ∧ (prev = some '.' ∨ prev = some '?' ∨ prev = some '!') then
      acc.reverse :: splitSentGo fuel ((c :: rest).dropWhile pyIsSpace) none []
    else splitSentGo fuel rest (some c) (c :: acc)

/-- The sentence-boundary fallback split of `split_into_paragraphs`
(line 165). -/
def splitSentences (cs : List Char) : List (List Char) :=
  splitSentGo cs.length cs none []

/-- `split_into_paragraphs` (chunk_parsed_to_jsonl.py lines 153-167):
blank-line separation when it yields at least two parts, sentence-ish
splitting otherwise. -/
def splitIntoParagraphs (text : List Char) : List (List Char) :=
  let t := pyStrip text
  let parts := ((splitBlank t).map pyStrip).filter (fun p => !p.isEmpty)
  if 2 ≤ parts.length then parts
  else ((splitSentences t).map pyStrip).filter (fun p => !p.isEmpty)

/-- Python `str.split()` with no separator: split on whitespace runs,
dropping empty pieces. -/
def pySplitGo (fuel : Nat) (cs : List Char) : List (List Char) :=
  match fuel, cs with
  | _, [] => []
  | 0, _ :: _ => []
  | fuel + 1, c :: rest =>
    match (c :: rest).dropWhile pyIsSpace with
    | [] => []
    | d :: rest' =>
      ((d :: rest').takeWhile (fun x => !pyIsSpace x)) ::
        pySplitGo fuel ((d :: rest').dropWhile (fun x => !pyIsSpace x))

def pySplit (cs : List Char) : List (List Char) := pySplitGo cs.length cs

/-- `make_chunks_from_paragraphs` on paragraph strings: split each
paragraph into its word list, pack at the word level, and join each chunk
with single spaces.  This is the string-level reading of the word-level
embedding: `clean_text(p)` equals `" ".join(p.split())` for the strings
the pipeline passes in, `word_count` is the number of words, and the
packer only ever splits, counts, joins and slices words. -/
def makeChunksOfStrings (paras : List (List Char)) : List (List Char) :=
  (makeChunksFromParagraphs (paras.map pySplit)).map (joinSep [' '])

/-- The per-section processing of `main` (chunk_parsed_to_jsonl.py lines
257-279): junk filtering, cleaning, the 80-character floor, paragraph
splitting and chunk packing.  Returns the texts of the chunk records the
section contributes; `[]` when the section is skipped. -/
def sectionChunkTexts (heading text : List Char) : List (List Char) :=
  if sectionIsJunk heading text then []
  else
    let t1 := stripInlineJunk text
    let t2 := dedupeParagraphs t1
    let t3 := cleanText t2
    if t3.isEmpty || decide (t3.length < 80) then []
    else makeChunksOfStrings (splitIntoParagraphs t3)

/-- The characters kept by `SAFE_ID_RE = [^a-z0-9]+` after lowering. -/
def isSlugChar (c : Char) : Bool := ('a' ≤ c && c ≤ 'z') || ('0' ≤ c && c ≤ '9')

/-- Python `str.strip("_")`-style stripping of one character from both
ends. -/
def stripChar (t : Char) (cs : List Char) : List Char :=
  ((cs.dropWhile (fun c => c == t)).reverse.dropWhile (fun c => c == t)).reverse

/-- `slugify` (chunk_parsed_to_jsonl.py lines 71-74): lower-case, replace
each run of characters outside `[a-z0-9]` by a single underscore, strip
underscores from both ends, and default to `"main"` when empty. -/
def slugify (s : List Char) : List Char :=
  let lowered := s.map pyLower
  let subbed := squeezeRuns '_' (lowered.map (fun c => if isSlugChar c then c else '_'))
  let stripped := stripChar '_' subbed
  if stripped.isEmpty then "main".data else stripped

/-- The decimal digit character for `k < 10`. -/
def digitChar (k : Nat) : Char :=
  if k = 0 then '0' else if k = 1 then '1' else if k = 2 then '2' else if k = 3 then '3'
  else if k = 4 then '4' else if k = 5 then '5' else if k = 6 then '6' else if k = 7 then '7'
  else if k = 8 then '8' else '9'

/-- Numeric value of a digit character. -/
def digitVal (c : Char) : Nat := c.toNat - 48

/-- Decimal digits of `n`, most significant first.  The fuel bounds the
division loop; `fuel = n` suffices since `n / 10 < n` for `n ≥ 10`. -/
def natDigitsGo (fuel n : Nat) : List Char :=
  match fuel with
  | 0 => [digitChar (n % 10)]
  | fuel + 1 =>
    if n < 10 then [digitChar n]
    else natDigitsGo fuel (n / 10) ++ [digitChar (n % 10)]

def natDigits (n : Nat) : List Char := natDigitsGo n n

/-- Python `f"{i:04d}"` for non-negative `i`: decimal digits left-padded
with zeros to at least 4 characters. -/
def fmt4 (n : Nat) : List Char :=
  List.replicate (4 - (natDigits n).length) '0' ++ natDigits n

/-- Decimal value of a digit string (for roundtrip proofs). -/
def parseDigits (cs : List Char) : Nat :=
  cs.foldl (fun a c => 10 * a + digitVal c) 0

/-- ASCII decimal digit test. -/
def isDigitCh (c : Char) : Bool := '0' ≤ c && c ≤ '9'

/-- Whether `"__"` occurs anywhere in the string. -/
def hasDU (cs : List Char) : Bool :=
  (List.range cs.length).any (fun i => "__".data.isPrefixOf (cs.drop i))

/-- Shape guarantees of `slugify` output used for chunk-id uniqueness:
nonempty, no leading or trailing underscore, no double underscore. -/
def slugOK (g : List Char) : Prop :=
  g ≠ [] ∧ (∀ c, g.head? = some c → c ≠ '_') ∧ (∀ c, g.getLast? = some c → c ≠ '_') ∧
  hasDU g = false

/-- The chunk id `f"{source_id}__{section_slug}__{i:04d}"`
(chunk_parsed_to_jsonl.py line 283). -/
def mkChunkId (sid slug : List Char) (i : Nat) : List Char :=
  sid ++ "__".data ++ slug ++ "__".data ++ fmt4 i

/-- A parsed document as consumed by the assembler loop of `main`
(lines 245-296): its source id and its sections' headings and texts. -/
structure PDoc where
  sourceId : List Char
  sections : List (List Char × List Char)

/-- The chunk ids one document contributes (lines 257-283): each
surviving section's chunks are numbered from 1 in order
(`enumerate(chunk_texts, start=1)`). -/
def docChunkIds (d : PDoc) : List (List Char) :=
  d.sections.flatMap (fun sec =>
    (List.range (sectionChunkTexts sec.1 sec.2).length).map
      (fun k => mkChunkId d.sourceId (slugify sec.1) (k + 1)))

/-- All chunk ids emitted for a corpus of parsed documents, in pipeline
order. -/
def corpusChunkIds (docs : List PDoc) : List (List Char) :=
  docs.flatMap docChunkIds

/-- A one-document corpus whose two sections carry the distinct headings
`"Fees!"` and `"Fees?"`, both of which slugify to `"fees"`, and whose
texts each survive the 80-character floor. -/
def c3docs : List PDoc :=
  [⟨"a".data,
    [("Fees!".data,
      "Applicants must hold a valid passport and provide proof of continuous residence.".data),
     ("Fees?".data,
      "Fees are payable on application and are not refunded when a request is withdrawn.".data)]⟩]

/-- An HTML DOM fragment in next-sibling form, as walked by
`extract_sections` (parse_html_to_json.py lines 80-127): a forest is
either empty, a text node followed by its next sibling, or an element
carrying its (lower-cased) tag name, its `class` attribute tokens, its
children forest, and its next sibling. -/
inductive HDom : Type
  | nil : HDom
  | txt : List Char → HDom → HDom
  | elem : List Char → List (List Char) → HDom → HDom → HDom

/-- The text-node strings of a forest, in document order. -/
def textsOf : HDom → List (List Char)
  | .nil => []
  | .txt s next => s :: textsOf next
  | .elem _ _ children next => textsOf children ++ textsOf next

/-- `el.get_text(" ", strip=True)` over the element's children forest:
each descendant string stripped, empty results dropped, the rest joined
with a single space. -/
def getText (children : HDom) : List Char :=
  joinSep [' '] (((textsOf children).map pyStrip).filter (fun s => !s.isEmpty))

/-- `HEADING_TAGS = {"h1", "h2", "h3"}` (parse_html_to_json.py line 12). -/
def HEADING_TAGS : List (List Char) := ["h1".data, "h2".data, "h3".data]

/-- `TEXT_TAGS = {"p", "li", "blockquote", "td", "th", "dt", "dd"}`
(parse_html_to_json.py line 15). -/
def TEXT_TAGS : List (List Char) :=
  ["p".data, "li".data, "blockquote".data, "td".data, "th".data, "dt".data, "dd".data]

/-- Whether an element is a `div` whose class list matches
`re.compile(r"\bc-service-box\b")`: BeautifulSoup applies the regex to
each class token separately. -/
def isSBdiv (tag : List Char) (classes : List (List Char)) : Bool :=
  tag == "div".data && classes.any (fun c => searchWB "c-service-box".data c)

/-- `is_service_box_heading` (parse_html_to_json.py lines 62-77) for an
element whose class tokens are `classes` and whose ancestry inside the
container is summarised by `inSB` (some ancestor is a
`\bc-service-box\b` div): the joined stripped class string contains
`"c-service-box__heading"`, or such an ancestor exists. -/
def isSBHeading (classes : List (List Char)) (inSB : Bool) : Bool :=
  containsSubstr "c-service-box__heading".data (pyStrip (joinSep [' '] classes)) || inSB

/-- The mutable state of `extract_sections`: the emitted sections and the
current section's heading and accumulated `text_parts`. -/
structure ExtState where
  sections : List (List Char × List Char)
  curHeading : List Char
  curParts : List (List Char)

/-- `flush_current` (parse_html_to_json.py lines 89-92): join the parts
with spaces, clean, and append a section when the result is nonempty. -/
def flushCurrent (st : ExtState) : ExtState :=
  let text := cleanText (joinSep [' '] st.curParts)
  if text.isEmpty then st
  else { st with sections := st.sections ++ [(st.curHeading, text)] }

/-- One element's effect on the state (parse_html_to_json.py lines
98-117): a heading with nonempty cleaned text either is appended inline
(service-box case) or flushes and starts a new section; a text tag with
cleaned text of length at least 5 is appended; anything else is ignored. -/
def elemStep (inSB : Bool) (tag : List Char) (classes : List (List Char))
    (children : HDom) (st : ExtState) : ExtState :=
  if HEADING_TAGS.contains tag then
    let heading := cleanText (getText children)
    if heading.isEmpty then st
    else if isSBHeading classes inSB then
      { st with curParts := st.curParts ++ [heading] }
    else
      { flushCurrent st with curHeading := heading, curParts := [] }
  else if TEXT_TAGS.contains tag then
    let txt := cleanText (getText children)
    if txt ≠ [] ∧ 5 ≤ txt.length then
      { st with curParts := st.curParts ++ [txt] }
    else st
  else st

/-- The `for el in container.descendants` loop (lines 94-117) in document
order: process the element, then its children with the service-box flag
extended by `isSBdiv`, then its next sibling.  Text nodes are not `Tag`s
and are skipped. -/
def walk (inSB : Bool) (d : HDom) (st : ExtState) : ExtState :=
  match d with
  | .nil => st
  | .txt _ next => walk inSB next st
  | .elem tag classes children next =>
    walk inSB next (walk (inSB || isSBdiv tag classes) children
      (elemStep inSB tag classes children st))

/-- `extract_sections` (lines 80-127): walk the container's descendants
from the initial `{"heading": "main", "text_parts": []}` state, flush,
and fall back to one `"main"` section holding the container's full
cleaned text when nothing was emitted. -/
def extractSections (container : HDom) : List (List Char × List Char) :=
  let fin := flushCurrent (walk false container ⟨[], "main".data, []⟩)
  if fin.sections.isEmpty then
    if (cleanText (getText container)).isEmpty then []
    else [("main".data, cleanText (getText container))]
  else fin.sections

/-- The headings of heading elements that are NOT service-box classified
(given the ancestor flag `inSB` at their position) and have nonempty
cleaned text: the only headings allowed to start sections. -/
def nonSBHeadings (inSB : Bool) : HDom → List (List Char)
  | .nil => []
  | .txt _ next => nonSBHeadings inSB next
  | .elem tag classes children next =>
    (if HEADING_TAGS.contains tag = true ∧ cleanText (getText children) ≠ [] ∧
        isSBHeading classes inSB = false
     then [cleanText (getText children)] else [])
    ++ nonSBHeadings (inSB || isSBdiv tag classes) children
    ++ nonSBHeadings inSB next

/-- A small container with one ordinary heading and one paragraph. -/
def cont9 : HDom :=
  .elem "h2".data [] (.txt "Visa".data .nil)
    (.elem "p".data [] (.txt "Apply online today.".data .nil) .nil)

/-- No blank-line separator starts anywhere in `p`. -/
def noBlankSep (p : List Char) : Prop := ∀ i, sepAt (p.drop i) = false

/-- The first and last characters (when any) are not whitespace. -/
def noWsEnds (s : List Char) : Prop :=
  (∀ c, s.head? = some c → pyIsSpace c = false) ∧
  (∀ c, s.getLast? = some c → pyIsSpace c = false)

-- ===================================================================
-- Theorems
-- ===================================================================

theorem flushCur_chunks {α : Type} (st : PackState α) :
    (flushCur st).chunks = st.chunks ++ [st.cur.flatten] := rfl

theorem flushCur_curWords_le {α : Type} (st : PackState α) :
    (flushCur st).curWords ≤ OVERLAP_WORDS := by
  show (st.cur.flatten.drop (st.cur.flatten.length - OVERLAP_WORDS)).length ≤ OVERLAP_WORDS
  rw [List.length_drop]
  omega

theorem flushCur_curOk {α : Type} (st : PackState α) :
    (flushCur st).curWords = (flushCur st).cur.flatten.length := by
  simp only [flushCur]
  split_ifs with h
  · have h' := List.isEmpty_iff.mp h
    show (lastOv st.cur.flatten).length = (List.flatten ([] : List (List α))).length
    rw [h']
    rfl
  · show (lastOv st.cur.flatten).length = (List.flatten [lastOv st.cur.flatten]).length
    simp

theorem mem_hardSplitGo_length {α : Type} (fuel : Nat) (words : List α)
    (c : List α) (hc : c ∈ hardSplitGo fuel words) : c.length ≤ MAX_WORDS := by
  induction fuel generalizing words with
  | zero => simp [hardSplitGo] at hc
  | succ fuel ih =>
    simp only [hardSplitGo] at hc
    by_cases he : words.isEmpty
    · simp [he] at hc
    · simp only [he, if_neg, Bool.false_eq_true, not_false_iff, if_false] at hc
      rcases List.mem_cons.mp hc with h | h
      · subst h
        exact List.length_take_le MAX_WORDS words
      · by_cases hl : words.length ≤ MAX_WORDS
        · simp [hl] at h
        · simp only [hl, if_neg, if_false] at h
          exact ih _ h

theorem packStep_invB {α : Type} (st : PackState α) (p : List α)
    (h : PackInvB st) : PackInvB (packStep st p) := by
  obtain ⟨hok, hlt, hbd⟩ := h
  by_cases hp : p.isEmpty
  · simpa [packStep, hp] using ⟨hok, hlt, hbd⟩
  by_cases hbig : MAX_WORDS < p.length
  · refine ⟨by simp [packStep, hp, hbig, hok], by simp [packStep, hp, hbig]; exact hlt, ?_⟩
    intro c hc
    simp only [packStep, hp, hbig, if_neg, if_pos, Bool.false_eq_true, not_false_iff,
      if_false] at hc ⊢
    rcases List.mem_append.mp hc with h | h
    · exact hbd c h
    · have := mem_hardSplitGo_length _ _ _ h
      omega
  -- accumulator path
  have hplen : p.length ≤ MAX_WORDS := le_of_not_lt hbig
  have hpne : p.length ≥ 1 := by
    cases p with
    | nil => simp at hp
    | cons a l => simp
  simp only [packStep, hp, hbig, Bool.false_eq_true, not_false_iff, if_false, if_neg]
  set st1 := if st.cur.isEmpty = true ∨ st.curWords + p.length ≤ MAX_WORDS then st
    else flushCur st with hst1
  have hst1props : st1.curWords = st1.cur.flatten.length ∧
      (∀ c ∈ st1.chunks, c.length ≤ MAX_WORDS + OVERLAP_WORDS) ∧
      st1.curWords + p.length ≤ MAX_WORDS + OVERLAP_WORDS := by
    by_cases hcond : st.cur.isEmpty = true ∨ st.curWords + p.length ≤ MAX_WORDS
    · rw [hst1, if_pos hcond]
      refine ⟨hok, hbd, ?_⟩
      rcases hcond with hcur | hle
      · have : st.cur.flatten.length = 0 := by
          simp [List.isEmpty_iff] at hcur
          simp [hcur]
        omega
      · omega
    · rw [hst1, if_neg hcond]
      refine ⟨flushCur_curOk st, ?_, ?_⟩
      · intro c hc
        rw [flushCur_chunks] at hc
        rcases List.mem_append.mp hc with h | h
        · exact hbd c h
        · simp only [List.mem_singleton] at h
          subst h
          rw [← hok]
          have : TARGET_WORDS ≤ MAX_WORDS + OVERLAP_WORDS := by decide
          omega
      · have := flushCur_curWords_le st
        omega
  obtain ⟨h1ok, h1bd, h1sum⟩ := hst1props
  by_cases htgt : TARGET_WORDS ≤ st1.curWords + p.length
  · simp only [htgt, if_pos]
    refine ⟨flushCur_curOk _, ?_, ?_⟩
    · have h60 := flushCur_curWords_le
        { st1 with cur := st1.cur ++ [p], curWords := st1.curWords + p.length }
      have hlt' : OVERLAP_WORDS < TARGET_WORDS := by decide
      omega
    · intro c hc
      rw [flushCur_chunks] at hc
      rcases List.mem_append.mp hc with h | h
      · exact h1bd c h
      · simp only [List.mem_singleton] at h
        subst h
        simp only [List.flatten_append, List.flatten_cons, List.flatten_nil,
          List.append_nil, List.length_append]
        omega
  · simp only [htgt, if_neg, if_false]
    refine ⟨?_, ?_, h1bd⟩
    · show st1.curWords + p.length = ((st1.cur ++ [p]).flatten).length
      simp only [List.flatten_append, List.flatten_cons, List.flatten_nil,
        List.append_nil, List.length_append]
      omega
    · show st1.curWords + p.length < TARGET_WORDS
      omega

theorem foldl_packStep_invB {α : Type} (paras : List (List α)) (st : PackState α)
    (h : PackInvB st) : PackInvB (paras.foldl packStep st) := by
  induction paras generalizing st with
  | nil => exact h
  | cons p rest ih => exact ih _ (packStep_invB st p h)

/-- Shared bound: every chunk produced by the packer has at most
`MAX_WORDS + OVERLAP_WORDS` words. -/
theorem makeChunks_length_le {α : Type} (paras : List (List α))
    (c : List α) (hc : c ∈ makeChunksFromParagraphs paras) :
    c.length ≤ MAX_WORDS + OVERLAP_WORDS := by
  have hinit : PackInvB ({ chunks := [], cur := [], curWords := 0 } : PackState α) := by
    refine ⟨rfl, ?_, ?_⟩
    · show (0 : Nat) < TARGET_WORDS
      decide
    · intro c hc
      simp at hc
  have hinv : PackInvB (paras.foldl packStep { chunks := [], cur := [], curWords := 0 }) :=
    foldl_packStep_invB paras _ hinit
  obtain ⟨hok, hlt, hbd⟩ := hinv
  simp only [makeChunksFromParagraphs] at hc
  have hc' := List.mem_filter.mp hc
  set st := paras.foldl packStep { chunks := [], cur := [], curWords := 0 }
  by_cases hcur : st.cur.isEmpty
  · rw [if_pos hcur] at hc'
    exact hbd c hc'.1
  · rw [if_neg hcur] at hc'
    rcases List.mem_append.mp hc'.1 with h | h
    · exact hbd c h
    · simp only [List.mem_singleton] at h
      subst h
      have : TARGET_WORDS ≤ MAX_WORDS + OVERLAP_WORDS := by decide
      omega

/-- Claim C1, counterexample: on a single paragraph of 1200 words the
packer does not produce chunks of word counts [500, 500, 260].  (The third
window starts 60 words before the end of the second, at word 881, so the
actual sizes are [500, 500, 320].) -/
theorem claim_C1_counterexample :
    (makeChunksFromParagraphs [List.range 1200]).map List.length ≠ [500, 500, 260] := by
  decide

/-- Claim C1, amended: a single paragraph of 1200 words with
MAX_WORDS = 500 and OVERLAP_WORDS = 60 yields exactly 3 chunks of word
counts [500, 500, 320]; the last 60 words of chunk 1 (words 441-500) are
the first 60 words of chunk 2, and likewise between chunk 2 and
chunk 3. -/
theorem claim_C1_amended :
    (makeChunksFromParagraphs [List.range 1200]).map List.length = [500, 500, 320] ∧
    ((makeChunksFromParagraphs [List.range 1200]).getD 1 []).take OVERLAP_WORDS
      = ((makeChunksFromParagraphs [List.range 1200]).getD 0 []).drop (500 - OVERLAP_WORDS) ∧
    ((makeChunksFromParagraphs [List.range 1200]).getD 2 []).take OVERLAP_WORDS
      = ((makeChunksFromParagraphs [List.range 1200]).getD 1 []).drop (500 - OVERLAP_WORDS) := by
  decide

/-- Claim C10: every chunk returned by make_chunks_from_paragraphs has at
most MAX_WORDS + OVERLAP_WORDS (= 560) words: hard-split windows have at
most MAX_WORDS words, and an accumulator-path chunk can exceed MAX_WORDS
only by the OVERLAP_WORDS-word carry-over seed prepended after a flush. -/
theorem claim_C10 {α : Type} (paras : List (List α)) (c : List α)
    (hc : c ∈ makeChunksFromParagraphs paras) :
    c.length ≤ MAX_WORDS + OVERLAP_WORDS :=
  makeChunks_length_le paras c hc

/-- Witness for claim C10 at a concrete input. -/
theorem claim_C10_witness :
    ([7, 8, 9] : List Nat).length ≤ MAX_WORDS + OVERLAP_WORDS :=
  claim_C10 [[7, 8, 9]] [7, 8, 9] (by decide)

/-- Claim C2, counterexample: the paragraph sequence of two 450-word
paragraphs has no paragraph over MAX_WORDS, yet one of the resulting
chunks (the overlap seed plus the second paragraph, 510 words) exceeds
MAX_WORDS. -/
theorem claim_C2_counterexample :
    (∀ p ∈ [List.range 450, (List.range 450).map (· + 450)], p.length ≤ MAX_WORDS) ∧
    ∃ c ∈ makeChunksFromParagraphs [List.range 450, (List.range 450).map (· + 450)],
      MAX_WORDS < c.length := by
  decide

/-- Claim C2, amended: for every input paragraph sequence in which no
single paragraph exceeds MAX_WORDS, every chunk returned by
make_chunks_from_paragraphs has a word count of at most
MAX_WORDS + OVERLAP_WORDS (the MAX_WORDS bound alone can be exceeded by
up to the OVERLAP_WORDS-word carry-over seed). -/
theorem claim_C2_amended {α : Type} (paras : List (List α))
    (_hp : ∀ p ∈ paras, p.length ≤ MAX_WORDS) (c : List α)
    (hc : c ∈ makeChunksFromParagraphs paras) :
    c.length ≤ MAX_WORDS + OVERLAP_WORDS :=
  makeChunks_length_le paras c hc

/-- Witness for the amended claim C2 at a concrete input. -/
theorem claim_C2_amended_witness :
    ([4, 5] : List Nat).length ≤ MAX_WORDS + OVERLAP_WORDS :=
  claim_C2_amended [[4, 5]] (by decide) [4, 5] (by decide)

theorem take_len_append {α : Type} (a t : List α) : (a ++ t).take a.length = a := by
  induction a with
  | nil => rfl
  | cons x xs ih => simp [ih]

theorem isEmpty_false_of_ne {α : Type} (l : List α) (h : l ≠ []) : l.isEmpty = false := by
  cases l with
  | nil => exact absurd rfl h
  | cons a t => rfl

theorem lastOv_ne_nil {α : Type} (c : List α) (hc : c ≠ []) : lastOv c ≠ [] := by
  have h1 : 0 < c.length := List.length_pos.mpr hc
  have h2 : (lastOv c).length = c.length - (c.length - OVERLAP_WORDS) := by
    simp [lastOv]
  intro h0
  rw [h0] at h2
  simp only [List.length_nil] at h2
  have h3 : 0 < OVERLAP_WORDS := by decide
  omega

theorem flatten_ne_nil_of {α : Type} (l : List (List α)) (hl : l ≠ [])
    (h : ∀ q ∈ l, q ≠ []) : l.flatten ≠ [] := by
  cases l with
  | nil => exact absurd rfl hl
  | cons a rest =>
    have ha := h a (by simp)
    cases a with
    | nil => exact absurd rfl ha
    | cons x xs => simp

theorem filter_ne_nil_eq_self {α : Type} (L : List (List α)) (h : ∀ c ∈ L, c ≠ []) :
    L.filter (fun c => !c.isEmpty) = L := by
  induction L with
  | nil => rfl
  | cons a rest ih =>
    have ha : (!a.isEmpty) = true := by
      have := isEmpty_false_of_ne a (h a (by simp))
      simp [this]
    simp [List.filter_cons, ha, ih (fun c hc => h c (by simp [hc]))]

theorem adjOK_concat {α : Type} (l : List (List α)) (c : List α) (h : adjOK l)
    (hlink : ∀ a, l.getLast? = some a → overlapNext a c) : adjOK (l ++ [c]) := by
  induction l with
  | nil => exact trivial
  | cons a rest ih =>
    cases rest with
    | nil => exact ⟨hlink a rfl, trivial⟩
    | cons b rest2 =>
      obtain ⟨h1, h2⟩ := h
      exact ⟨h1, ih h2 (fun x hx => hlink x (by rw [List.getLast?_cons_cons]; exact hx))⟩

theorem adjOK_overlapNext {α : Type} (l : List (List α)) (h : adjOK l) (i : Nat)
    (hi : i + 1 < l.length) : overlapNext l[i] l[i + 1] := by
  induction l generalizing i with
  | nil => simp at hi
  | cons a rest ih =>
    cases rest with
    | nil => simp at hi
    | cons b rest2 =>
      obtain ⟨h1, h2⟩ := h
      cases i with
      | zero => simpa using h1
      | succ j =>
        have hj : j + 1 < (b :: rest2).length := by
          simp only [List.length_cons] at hi ⊢
          omega
        simpa using ih h2 j hj

theorem flushCur_invC {α : Type} (st : PackState α) (h : PackInvC st)
    (hcur : st.cur ≠ []) : PackInvC (flushCur st) := by
  obtain ⟨hch, hcu, hne, hadj, hlink⟩ := h
  have hJ : st.cur.flatten ≠ [] := flatten_ne_nil_of st.cur hcur hcu
  have hseed : lastOv st.cur.flatten ≠ [] := lastOv_ne_nil _ hJ
  have hseedE := isEmpty_false_of_ne _ hseed
  have hcur' : (flushCur st).cur = [lastOv st.cur.flatten] := by
    simp [flushCur, hseedE]
  refine ⟨?_, ?_, ?_, ?_, ?_⟩
  · intro c hc
    rw [flushCur_chunks] at hc
    rcases List.mem_append.mp hc with h | h
    · exact hch c h
    · simp only [List.mem_singleton] at h
      subst h
      exact hJ
  · intro q hq
    rw [hcur'] at hq
    simp only [List.mem_singleton] at hq
    subst hq
    exact hseed
  · intro _
    rw [hcur']
    simp
  · rw [flushCur_chunks]
    refine adjOK_concat _ _ hadj ?_
    intro a ha
    obtain ⟨t, ht⟩ := hlink a ha
    show (st.cur.flatten).take (lastOv a).length = lastOv a
    rw [ht, take_len_append]
  · intro c hc
    rw [flushCur_chunks, List.getLast?_concat] at hc
    obtain rfl := Option.some.inj hc
    refine ⟨[], ?_⟩
    rw [hcur']
    simp

theorem invC_appendP {α : Type} (st : PackState α) (p : List α) (h : PackInvC st)
    (hpne : p ≠ []) :
    PackInvC { st with cur := st.cur ++ [p], curWords := st.curWords + p.length } := by
  obtain ⟨hch, hcu, hne, hadj, hlink⟩ := h
  refine ⟨hch, ?_, ?_, hadj, ?_⟩
  · intro q hq
    rcases List.mem_append.mp hq with h | h
    · exact hcu q h
    · simp only [List.mem_singleton] at h
      subst h
      exact hpne
  · intro _
    simp
  · intro c hc
    obtain ⟨t, ht⟩ := hlink c hc
    refine ⟨t ++ p, ?_⟩
    show (st.cur ++ [p]).flatten = lastOv c ++ (t ++ p)
    rw [List.flatten_append]
    simp [ht]

theorem packStep_invC {α : Type} (st : PackState α) (p : List α)
    (h : PackInvC st) (hple : p.length ≤ MAX_WORDS) : PackInvC (packStep st p) := by
  by_cases hp : p.isEmpty
  · simpa [packStep, hp] using h
  have hbig : ¬ MAX_WORDS < p.length := not_lt.mpr hple
  have hpne : p ≠ [] := by
    cases p with
    | nil => simp at hp
    | cons a l => simp
  simp only [packStep, hp, hbig, Bool.false_eq_true, not_false_iff, if_false, if_neg]
  set st1 := if st.cur.isEmpty = true ∨ st.curWords + p.length ≤ MAX_WORDS then st
    else flushCur st with hst1
  have h1 : PackInvC st1 := by
    by_cases hcond : st.cur.isEmpty = true ∨ st.curWords + p.length ≤ MAX_WORDS
    · rw [hst1, if_pos hcond]
      exact h
    · rw [hst1, if_neg hcond]
      push_neg at hcond
      refine flushCur_invC st h ?_
      intro h0
      exact absurd (by simp [h0] : st.cur.isEmpty = true) (by simpa using hcond.1)
  have h2 : PackInvC { st1 with cur := st1.cur ++ [p], curWords := st1.curWords + p.length } :=
    invC_appendP st1 p h1 hpne
  by_cases htgt : TARGET_WORDS ≤ st1.curWords + p.length
  · simp only [htgt, if_pos]
    exact flushCur_invC _ h2 (by simp)
  · simp only [htgt, if_neg, if_false]
    exact h2

theorem foldl_packStep_invC {α : Type} (paras : List (List α)) (st : PackState α)
    (h : PackInvC st) (hp : ∀ p ∈ paras, p.length ≤ MAX_WORDS) :
    PackInvC (paras.foldl packStep st) := by
  induction paras generalizing st with
  | nil => exact h
  | cons q rest ih =>
    exact ih _ (packStep_invC st q h (hp q (by simp))) (fun p hp' => hp p (by simp [hp']))

theorem makeChunks_adjOK {α : Type} (paras : List (List α))
    (hp : ∀ p ∈ paras, p.length ≤ MAX_WORDS) :
    adjOK (makeChunksFromParagraphs paras) := by
  have hinit : PackInvC ({ chunks := [], cur := [], curWords := 0 } : PackState α) := by
    refine ⟨?_, ?_, ?_, ?_, ?_⟩
    · intro c hc
      simp at hc
    · intro q hq
      simp at hq
    · intro hfalse
      simp at hfalse
    · exact trivial
    · intro c hc
      simp at hc
  have hinv := foldl_packStep_invC paras _ hinit hp
  obtain ⟨hch, hcu, hne, hadj, hlink⟩ := hinv
  simp only [makeChunksFromParagraphs]
  set st := paras.foldl packStep
    ({ chunks := [], cur := [], curWords := 0 } : PackState α) with hst
  by_cases hcur : st.cur.isEmpty = true
  · rw [if_pos hcur]
    rw [filter_ne_nil_eq_self _ hch]
    exact hadj
  · rw [if_neg hcur]
    have hcurne : st.cur ≠ [] := by
      intro h0
      rw [h0] at hcur
      exact hcur rfl
    have hJ : st.cur.flatten ≠ [] := flatten_ne_nil_of _ hcurne hcu
    have hall : ∀ c ∈ st.chunks ++ [st.cur.flatten], c ≠ [] := by
      intro c hc
      rcases List.mem_append.mp hc with h | h
      · exact hch c h
      · simp only [List.mem_singleton] at h
        subst h
        exact hJ
    rw [filter_ne_nil_eq_self _ hall]
    refine adjOK_concat _ _ hadj ?_
    intro a ha
    obtain ⟨t, ht⟩ := hlink a ha
    show (st.cur.flatten).take (lastOv a).length = lastOv a
    rw [ht, take_len_append]

/-- Claim C5, counterexample: on the paragraph sequence of a 10-word
paragraph followed by a 495-word paragraph the packer produces 3 chunks,
and the trailing OVERLAP_WORDS words of chunk 1 (its whole 10 words) are
not the leading OVERLAP_WORDS words of chunk 2 (60 words: the 10-word seed
plus the start of the second paragraph). -/
theorem claim_C5_counterexample :
    (makeChunksFromParagraphs [List.range 10, (List.range 495).map (· + 10)]).length = 3 ∧
    ((makeChunksFromParagraphs [List.range 10, (List.range 495).map (· + 10)]).getD 1 []).take
        OVERLAP_WORDS
      ≠ ((makeChunksFromParagraphs [List.range 10, (List.range 495).map (· + 10)]).getD 0 []).drop
          (((makeChunksFromParagraphs [List.range 10,
              (List.range 495).map (· + 10)]).getD 0 []).length - OVERLAP_WORDS) := by
  decide

/-- Claim C5, amended: whenever make_chunks_from_paragraphs produces more
than one chunk, no input paragraph exceeds MAX_WORDS, and chunk i has at
least OVERLAP_WORDS words, the trailing OVERLAP_WORDS words of chunk i
equal the leading OVERLAP_WORDS words of chunk i+1.  (When chunk i is
shorter than OVERLAP_WORDS its whole content is still a prefix of chunk
i+1, but the stated 60-word equality fails; and hard-split windows of an
oversized paragraph break the property entirely.) -/
theorem claim_C5_amended {α : Type} (paras : List (List α))
    (hp : ∀ p ∈ paras, p.length ≤ MAX_WORDS) (i : Nat)
    (hi : i + 1 < (makeChunksFromParagraphs paras).length)
    (hlen : OVERLAP_WORDS ≤ ((makeChunksFromParagraphs paras).getD i []).length) :
    ((makeChunksFromParagraphs paras).getD (i + 1) []).take OVERLAP_WORDS
      = ((makeChunksFromParagraphs paras).getD i []).drop
          (((makeChunksFromParagraphs paras).getD i []).length - OVERLAP_WORDS) := by
  have hadj := makeChunks_adjOK paras hp
  have hov := adjOK_overlapNext _ hadj i hi
  have hb1 : i < (makeChunksFromParagraphs paras).length := by omega
  rw [List.getD_eq_getElem _ _ hb1] at hlen
  rw [List.getD_eq_getElem _ _ hb1, List.getD_eq_getElem _ _ hi]
  simp only [overlapNext] at hov
  have hlov : (lastOv ((makeChunksFromParagraphs paras)[i])).length = OVERLAP_WORDS := by
    simp only [lastOv, List.length_drop]
    omega
  rw [hlov] at hov
  simpa [lastOv] using hov

/-- Witness for the amended claim C5 at a concrete input (two 400-word
paragraphs; the packer emits chunks of 400, 460 and 60 words). -/
theorem claim_C5_amended_witness :
    ((makeChunksFromParagraphs [List.range 400, (List.range 400).map (· + 400)]).getD 1 []).take
        OVERLAP_WORDS
      = ((makeChunksFromParagraphs [List.range 400, (List.range 400).map (· + 400)]).getD 0 []).drop
          (((makeChunksFromParagraphs [List.range 400,
              (List.range 400).map (· + 400)]).getD 0 []).length - OVERLAP_WORDS) :=
  claim_C5_amended [List.range 400, (List.range 400).map (· + 400)] (by decide) 0 (by decide)
    (by decide)

theorem stConcat_flushCur {α : Type} (st : PackState α) :
    stConcat (flushCur st) = stConcat st ++ lastOv st.cur.flatten := by
  by_cases h : (lastOv st.cur.flatten).isEmpty = true
  · have h' := List.isEmpty_iff.mp h
    simp [stConcat, flushCur, h, h', List.flatten_append, List.append_assoc]
  · simp [stConcat, flushCur, h, List.flatten_append, List.append_assoc]

theorem stConcat_packStep_big {α : Type} (st : PackState α) (p : List α)
    (hp : ¬ p.isEmpty = true) (hbig : MAX_WORDS < p.length) :
    stConcat (packStep st p)
      = st.chunks.flatten ++ ((hardSplit p).flatten ++ st.cur.flatten) := by
  simp [packStep, hp, hbig, stConcat, List.flatten_append, List.append_assoc]

theorem stConcat_packStep_acc {α : Type} (st : PackState α) (p : List α)
    (hp : ¬ p.isEmpty = true) (hbig : ¬ MAX_WORDS < p.length) :
    ∃ x y, stConcat (packStep st p) = (stConcat st ++ x) ++ (p ++ y) := by
  simp only [packStep, hp, hbig, Bool.false_eq_true, not_false_iff, if_false, if_neg]
  set st1 := if st.cur.isEmpty = true ∨ st.curWords + p.length ≤ MAX_WORDS then st
    else flushCur st with hst1
  have hx : ∃ x, stConcat st1 = stConcat st ++ x := by
    by_cases hcond : st.cur.isEmpty = true ∨ st.curWords + p.length ≤ MAX_WORDS
    · exact ⟨[], by rw [hst1, if_pos hcond]; simp⟩
    · exact ⟨lastOv st.cur.flatten, by rw [hst1, if_neg hcond]; exact stConcat_flushCur st⟩
  obtain ⟨x, hxeq⟩ := hx
  have h2 : stConcat { st1 with cur := st1.cur ++ [p], curWords := st1.curWords + p.length }
      = stConcat st1 ++ p := by
    simp [stConcat, List.flatten_append, List.append_assoc]
  by_cases htgt : TARGET_WORDS ≤ st1.curWords + p.length
  · rw [if_pos htgt]
    refine ⟨x, lastOv ((st1.cur ++ [p]).flatten), ?_⟩
    rw [stConcat_flushCur, h2, hxeq]
    simp [List.append_assoc]
  · rw [if_neg htgt]
    refine ⟨x, [], ?_⟩
    rw [h2, hxeq]
    simp [List.append_assoc]

theorem sublist_hardSplitGo_flatten {α : Type} (fuel : Nat) (words : List α)
    (hf : words.length ≤ fuel) : List.Sublist words (hardSplitGo fuel words).flatten := by
  induction fuel generalizing words with
  | zero =>
    have h0 : words = [] := List.length_eq_zero.mp (Nat.le_zero.mp hf)
    subst h0
    exact List.nil_sublist _
  | succ fuel ih =>
    by_cases he : words.isEmpty = true
    · rw [List.isEmpty_iff.mp he]
      exact List.nil_sublist _
    · by_cases hl : words.length ≤ MAX_WORDS
      · simp only [hardSplitGo, he, Bool.false_eq_true, not_false_iff, if_false, hl, if_pos,
          List.flatten_cons, List.flatten_nil, List.append_nil]
        rw [List.take_of_length_le hl]
      · simp only [hardSplitGo, he, hl, Bool.false_eq_true, not_false_iff, if_false, if_neg,
          List.flatten_cons]
        have h440 : (words.drop (MAX_WORDS - OVERLAP_WORDS)).length ≤ fuel := by
          rw [List.length_drop]
          have : MAX_WORDS - OVERLAP_WORDS = 440 := by decide
          omega
        have hrec := ih (words.drop (MAX_WORDS - OVERLAP_WORDS)) h440
        have hsplit : words = words.take MAX_WORDS ++ words.drop MAX_WORDS :=
          (List.take_append_drop _ _).symm
        nth_rewrite 1 [hsplit]
        refine List.Sublist.append (List.Sublist.refl _) ?_
        have hconst : MAX_WORDS - OVERLAP_WORDS + OVERLAP_WORDS = MAX_WORDS := by decide
        have hdd : words.drop MAX_WORDS
            = (words.drop (MAX_WORDS - OVERLAP_WORDS)).drop OVERLAP_WORDS := by
          rw [List.drop_drop, hconst]
        rw [hdd]
        exact List.Sublist.trans (List.drop_sublist _ _) hrec

theorem stConcat_packStep_mono {α : Type} (st : PackState α) (p : List α) :
    List.Sublist (stConcat st) (stConcat (packStep st p)) := by
  by_cases hp : p.isEmpty = true
  · simp only [packStep, hp, if_pos]
    exact List.Sublist.refl _
  · by_cases hbig : MAX_WORDS < p.length
    · rw [stConcat_packStep_big st p hp hbig]
      exact List.Sublist.append_left (List.sublist_append_right _ _) _
    · obtain ⟨x, y, hxy⟩ := stConcat_packStep_acc st p hp hbig
      rw [hxy]
      exact List.Sublist.trans (List.sublist_append_left _ _) (List.sublist_append_left _ _)

theorem stConcat_packStep_self {α : Type} (st : PackState α) (p : List α) (hpne : p ≠ []) :
    List.Sublist p (stConcat (packStep st p)) := by
  have hp : ¬ p.isEmpty = true := by simp [List.isEmpty_iff, hpne]
  by_cases hbig : MAX_WORDS < p.length
  · rw [stConcat_packStep_big st p hp hbig]
    have h1 : List.Sublist p (hardSplit p).flatten :=
      sublist_hardSplitGo_flatten p.length p (le_refl _)
    refine List.Sublist.trans h1 ?_
    refine List.Sublist.trans (List.sublist_append_left _ st.cur.flatten) ?_
    exact List.sublist_append_right _ _
  · obtain ⟨x, y, hxy⟩ := stConcat_packStep_acc st p hp hbig
    rw [hxy]
    refine List.Sublist.trans ?_ (List.sublist_append_right _ _)
    exact List.sublist_append_left _ _

theorem stConcat_foldl_mono {α : Type} (paras : List (List α)) (st : PackState α) :
    List.Sublist (stConcat st) (stConcat (paras.foldl packStep st)) := by
  induction paras generalizing st with
  | nil => exact List.Sublist.refl _
  | cons q rest ih =>
    exact List.Sublist.trans (stConcat_packStep_mono st q) (ih (packStep st q))

theorem flatten_filter_ne {α : Type} (L : List (List α)) :
    (L.filter (fun c => !c.isEmpty)).flatten = L.flatten := by
  induction L with
  | nil => rfl
  | cons a rest ih =>
    cases a with
    | nil => simpa [List.filter_cons] using ih
    | cons x xs => simp [List.filter_cons, ih]

theorem makeChunks_flatten_eq {α : Type} (paras : List (List α)) :
    (makeChunksFromParagraphs paras).flatten
      = stConcat (paras.foldl packStep { chunks := [], cur := [], curWords := 0 }) := by
  simp only [makeChunksFromParagraphs]
  set st := paras.foldl packStep ({ chunks := [], cur := [], curWords := 0 } : PackState α)
  rw [flatten_filter_ne]
  by_cases hcur : st.cur.isEmpty = true
  · rw [if_pos hcur]
    have h' := List.isEmpty_iff.mp hcur
    simp [stConcat, h']
  · rw [if_neg hcur]
    simp [stConcat, List.flatten_append]

theorem para_sublist_foldl {α : Type} (paras : List (List α)) :
    ∀ (st : PackState α), ∀ p ∈ paras,
      List.Sublist p (stConcat (paras.foldl packStep st)) := by
  induction paras with
  | nil =>
    intro st p hp
    simp at hp
  | cons q rest ih =>
    intro st p hp
    rcases List.mem_cons.mp hp with rfl | hmem
    · by_cases hq : p = []
      · subst hq
        exact List.nil_sublist _
      · rw [List.foldl_cons]
        exact List.Sublist.trans (stConcat_packStep_self st p hq) (stConcat_foldl_mono rest _)
    · rw [List.foldl_cons]
      exact ih (packStep st q) p hmem

theorem order_sublist_foldl {α : Type} (paras : List (List α)) :
    ∀ (st : PackState α) (X : List α), (∀ p ∈ paras, p.length ≤ MAX_WORDS) →
      List.Sublist X (stConcat st) →
      List.Sublist (X ++ paras.flatten) (stConcat (paras.foldl packStep st)) := by
  induction paras with
  | nil =>
    intro st X _ hX
    simpa using hX
  | cons q rest ih =>
    intro st X hle hX
    rw [List.flatten_cons, ← List.append_assoc, List.foldl_cons]
    refine ih (packStep st q) (X ++ q) (fun p hp => hle p (by simp [hp])) ?_
    by_cases hq : q = []
    · subst hq
      simpa using List.Sublist.trans hX (stConcat_packStep_mono st [])
    · have hp : ¬ q.isEmpty = true := by simp [List.isEmpty_iff, hq]
      have hbig : ¬ MAX_WORDS < q.length := not_lt.mpr (hle q (by simp))
      obtain ⟨x, y, hxy⟩ := stConcat_packStep_acc st q hp hbig
      rw [hxy]
      exact List.Sublist.append (List.Sublist.trans hX (List.sublist_append_left _ _))
        (List.sublist_append_left _ _)

/-- Claim C4, counterexample: when a paragraph longer than MAX_WORDS
arrives while the accumulator already holds an earlier paragraph, its
hard-split windows are emitted immediately while the earlier paragraph is
flushed only afterwards, so the chunks do not present the words in the
original paragraph order (the concatenation of the input paragraphs is not
a subsequence of the concatenation of the chunks). -/
theorem claim_C4_counterexample :
    ¬ List.Sublist ([(List.range 10).map (· + 2000), List.range 501] : List (List Nat)).flatten
        (makeChunksFromParagraphs [(List.range 10).map (· + 2000), List.range 501]).flatten := by
  decide

/-- Claim C4, amended: every non-empty paragraph's content appears, in
order, within the produced chunks (each paragraph is a subsequence of the
concatenation of all chunks, so nothing is silently dropped), and when no
paragraph exceeds MAX_WORDS the chunks additionally present all
paragraphs' words in the original paragraph order (apart from the
deliberate overlap repetitions).  When a paragraph longer than MAX_WORDS
arrives while the accumulator holds earlier paragraphs, the earlier
content is emitted only after the hard-split windows, so the
cross-paragraph order guarantee fails there. -/
theorem claim_C4_amended {α : Type} (paras : List (List α)) :
    (∀ p ∈ paras, List.Sublist p (makeChunksFromParagraphs paras).flatten) ∧
    ((∀ p ∈ paras, p.length ≤ MAX_WORDS) →
      List.Sublist paras.flatten (makeChunksFromParagraphs paras).flatten) := by
  constructor
  · intro p hp
    rw [makeChunks_flatten_eq]
    exact para_sublist_foldl paras _ p hp
  · intro hle
    rw [makeChunks_flatten_eq]
    have h := order_sublist_foldl paras { chunks := [], cur := [], curWords := 0 } [] hle
      (List.nil_sublist _)
    simpa using h

/-- Witness for the amended claim C4 at a concrete input. -/
theorem claim_C4_amended_witness :
    List.Sublist [3, 4] (makeChunksFromParagraphs [[3, 4], [5]]).flatten ∧
    List.Sublist ([[3, 4], [5]] : List (List Nat)).flatten
      (makeChunksFromParagraphs [[3, 4], [5]]).flatten :=
  ⟨(claim_C4_amended [[3, 4], [5]]).1 [3, 4] (by decide),
   (claim_C4_amended [[3, 4], [5]]).2 (by decide)⟩

/-- Claim C7: for every heading string h and every text string t, if
heading_is_junk(h) returns true then section_is_junk(h, t) returns true
(section_is_junk tests heading_is_junk first and immediately returns
true). -/
theorem claim_C7 (h t : List Char) (hj : headingIsJunk h = true) :
    sectionIsJunk h t = true := by
  simp [sectionIsJunk, hj]

/-- Witness for claim C7 at a concrete input. -/
theorem claim_C7_witness :
    headingIsJunk "Sitemap".data = true ∧
    sectionIsJunk "Sitemap".data "Any text at all.".data = true :=
  ⟨by decide, claim_C7 "Sitemap".data "Any text at all.".data (by decide)⟩

theorem head_dropWhile_not (p : Char → Bool) (l : List Char) :
    ∀ c, (l.dropWhile p).head? = some c → p c = false := by
  induction l with
  | nil =>
    intro c hc
    simp at hc
  | cons a t ih =>
    intro c hc
    rw [List.dropWhile_cons] at hc
    by_cases ha : p a = true
    · rw [if_pos ha] at hc
      exact ih c hc
    · rw [if_neg ha] at hc
      simp only [List.head?_cons, Option.some.injEq] at hc
      subst hc
      simpa using ha

theorem getLast?_append_ne (l₁ l₂ : List Char) (h : l₂ ≠ []) :
    (l₁ ++ l₂).getLast? = l₂.getLast? := by
  rw [List.getLast?_append]
  cases l₂ with
  | nil => exact absurd rfl h
  | cons a t =>
    cases hl : (a :: t).getLast? with
    | none =>
      rw [List.getLast?_eq_none_iff] at hl
      simp at hl
    | some c => rfl

theorem dropWhile_shape (p : Char → Bool) (l : List Char) :
    ∃ a, l = a ++ l.dropWhile p := by
  induction l with
  | nil => exact ⟨[], rfl⟩
  | cons c t ih =>
    by_cases hc : p c = true
    · obtain ⟨a, ha⟩ := ih
      refine ⟨c :: a, ?_⟩
      rw [List.dropWhile_cons, if_pos hc, List.cons_append, ← ha]
    · refine ⟨[], ?_⟩
      rw [List.dropWhile_cons, if_neg hc, List.nil_append]

theorem pyStrip_shape (s : List Char) : ∃ a b, s = a ++ pyStrip s ++ b := by
  obtain ⟨a, ha⟩ := dropWhile_shape pyIsSpace s
  obtain ⟨b, hb⟩ := dropWhile_shape pyIsSpace (s.dropWhile pyIsSpace).reverse
  refine ⟨a, b.reverse, ?_⟩
  have h2 : s.dropWhile pyIsSpace
      = ((s.dropWhile pyIsSpace).reverse.dropWhile pyIsSpace).reverse ++ b.reverse := by
    have h3 := congrArg List.reverse hb
    rw [List.reverse_reverse, List.reverse_append] at h3
    exact h3
  conv_lhs => rw [ha, h2]
  simp [pyStrip, List.append_assoc]

theorem pyStrip_eq_of_noWsEnds (s : List Char) (h : noWsEnds s) : pyStrip s = s := by
  obtain ⟨h1, h2⟩ := h
  have hl : s.dropWhile pyIsSpace = s := by
    cases s with
    | nil => rfl
    | cons a t =>
      rw [List.dropWhile_cons, if_neg (by simp [h1 a rfl])]
  have hr : s.reverse.dropWhile pyIsSpace = s.reverse := by
    cases hs : s.reverse with
    | nil => rfl
    | cons a t =>
      have ha : s.getLast? = some a := by
        rw [← List.head?_reverse, hs]
        rfl
      rw [List.dropWhile_cons, if_neg (by simp [h2 a ha])]
  show ((s.dropWhile pyIsSpace).reverse.dropWhile pyIsSpace).reverse = s
  rw [hl, hr, List.reverse_reverse]

theorem noWsEnds_pyStrip (s : List Char) : noWsEnds (pyStrip s) := by
  constructor
  · intro c hc
    rw [show pyStrip s
        = ((s.dropWhile pyIsSpace).reverse.dropWhile pyIsSpace).reverse from rfl,
      List.head?_reverse] at hc
    by_cases hB : (s.dropWhile pyIsSpace).reverse.dropWhile pyIsSpace = []
    · rw [hB] at hc
      simp at hc
    · obtain ⟨pre, hpre⟩ := dropWhile_shape pyIsSpace (s.dropWhile pyIsSpace).reverse
      have h4 : (s.dropWhile pyIsSpace).reverse.getLast?
          = ((s.dropWhile pyIsSpace).reverse.dropWhile pyIsSpace).getLast? := by
        conv_lhs => rw [hpre]
        exact getLast?_append_ne _ _ hB
      rw [← h4, List.getLast?_reverse] at hc
      exact head_dropWhile_not pyIsSpace s c hc
  · intro c hc
    rw [show pyStrip s
        = ((s.dropWhile pyIsSpace).reverse.dropWhile pyIsSpace).reverse from rfl,
      List.getLast?_reverse] at hc
    exact head_dropWhile_not pyIsSpace _ c hc

theorem pyStrip_idem (s : List Char) : pyStrip (pyStrip s) = pyStrip s :=
  pyStrip_eq_of_noWsEnds _ (noWsEnds_pyStrip s)

theorem mem_of_getElemOpt (l : List Char) (n : Nat) (a : Char) (h : l[n]? = some a) :
    a ∈ l := by
  obtain ⟨hlt, he⟩ := List.getElem?_eq_some_iff.mp h
  exact he ▸ List.getElem_mem hlt

theorem count_takeWhile_append_le (p : Char → Bool) (c : Char) (x z : List Char) :
    (x.takeWhile p).count c ≤ ((x ++ z).takeWhile p).count c := by
  induction x with
  | nil => simp
  | cons a t ih =>
    rw [List.cons_append, List.takeWhile_cons, List.takeWhile_cons]
    by_cases ha : p a = true
    · rw [if_pos ha, if_pos ha]
      simp only [List.count_cons]
      exact Nat.add_le_add ih (le_refl _)
    · rw [if_neg ha, if_neg ha]

theorem sepAt_prefix_false (x z : List Char) (h : sepAt (x ++ z) = false) :
    sepAt x = false := by
  cases x with
  | nil => rfl
  | cons a t =>
    simp only [sepAt, List.cons_append] at h ⊢
    rcases Bool.and_eq_false_iff.mp h with h' | h'
    · rw [h']
      simp
    · rw [decide_eq_false_iff_not] at h'
      have hle := count_takeWhile_append_le pyIsSpace '\n' (a :: t) z
      rw [List.cons_append] at hle
      have hnot : ¬ 2 ≤ ((a :: t).takeWhile pyIsSpace).count '\n' := by omega
      simp [decide_eq_false_iff_not, hnot]

theorem drop_append_len (a x : List Char) (i : Nat) :
    (a ++ x).drop (a.length + i) = x.drop i := by
  induction a with
  | nil => simp
  | cons c t ih =>
    have hlen : (c :: t).length + i = (t.length + i) + 1 := by
      simp [List.length_cons]
      omega
    rw [List.cons_append, hlen, List.drop_succ_cons]
    exact ih

theorem noBlankSep_of_parts (a m b : List Char) (h : noBlankSep (a ++ (m ++ b))) :
    noBlankSep m := by
  intro i
  have hidx := h (a.length + i)
  rw [drop_append_len] at hidx
  by_cases hi : i ≤ m.length
  · rw [List.drop_append_of_le_length hi] at hidx
    exact sepAt_prefix_false _ _ hidx
  · rw [List.drop_eq_nil_of_le (by omega)]
    rfl

theorem lastNlPos_none_count (l : List Char) (h : lastNlPos l = none) :
    l.count '\n' = 0 := by
  induction l with
  | nil => rfl
  | cons c rest ih =>
    simp only [lastNlPos] at h
    cases hr : lastNlPos rest with
    | some i =>
      rw [hr] at h
      simp at h
    | none =>
      rw [hr] at h
      by_cases hc : c = '\n'
      · rw [if_pos hc] at h
        simp at h
      · rw [List.count_cons, ih hr]
        simp [hc]

theorem lastNlPos_lt_length (l : List Char) (i : Nat) (h : lastNlPos l = some i) :
    i < l.length := by
  induction l generalizing i with
  | nil => simp [lastNlPos] at h
  | cons c rest ih =>
    simp only [lastNlPos] at h
    cases hr : lastNlPos rest with
    | some j =>
      rw [hr] at h
      have hi : i = j + 1 := (Option.some.inj h).symm
      subst hi
      have := ih j hr
      simp only [List.length_cons]
      omega
    | none =>
      rw [hr] at h
      by_cases hc : c = '\n'
      · rw [if_pos hc] at h
        have hi : i = 0 := (Option.some.inj h).symm
        subst hi
        simp
      · rw [if_neg hc] at h
        simp at h

theorem lastNlPos_last (l : List Char) (i : Nat) (h : lastNlPos l = some i) :
    ∀ j, i < j → l[j]? ≠ some '\n' := by
  induction l generalizing i with
  | nil =>
    intro j hj
    simp
  | cons c rest ih =>
    intro j hj
    simp only [lastNlPos] at h
    cases hr : lastNlPos rest with
    | some k =>
      rw [hr] at h
      have hi : i = k + 1 := (Option.some.inj h).symm
      subst hi
      cases j with
      | zero => omega
      | succ j' =>
        rw [List.getElem?_cons_succ]
        exact ih k hr j' (by omega)
    | none =>
      rw [hr] at h
      by_cases hc : c = '\n'
      · rw [if_pos hc] at h
        have hi : i = 0 := (Option.some.inj h).symm
        subst hi
        cases j with
        | zero => omega
        | succ j' =>
          rw [List.getElem?_cons_succ]
          intro hnl
          have hmem : '\n' ∈ rest := mem_of_getElemOpt rest j' '\n' hnl
          have hz := lastNlPos_none_count rest hr
          exact (List.count_eq_zero.mp hz) hmem
      · rw [if_neg hc] at h
        simp at h

theorem lastNlPos_some_of_count (l : List Char) (h : 1 ≤ l.count '\n') :
    ∃ i, lastNlPos l = some i := by
  cases hl : lastNlPos l with
  | some i => exact ⟨i, rfl⟩
  | none =>
    have := lastNlPos_none_count l hl
    omega

theorem lastNlPos_pos_of_count2 (l : List Char) (h : 2 ≤ l.count '\n') :
    ∃ i, lastNlPos l = some i ∧ 1 ≤ i := by
  cases l with
  | nil => simp at h
  | cons c rest =>
    have hrest : 1 ≤ rest.count '\n' := by
      rw [List.count_cons] at h
      split at h
      · omega
      · omega
    obtain ⟨i, hi⟩ := lastNlPos_some_of_count rest hrest
    refine ⟨i + 1, ?_, by omega⟩
    simp only [lastNlPos, hi]

theorem sepLen_pos_le (x : List Char) (h : sepAt x = true) :
    1 ≤ sepLen x ∧ sepLen x ≤ x.length := by
  cases x with
  | nil => simp [sepAt] at h
  | cons c rest =>
    simp only [sepAt, Bool.and_eq_true, beq_iff_eq, decide_eq_true_eq] at h
    obtain ⟨hc, hcount⟩ := h
    obtain ⟨i, hi, h1⟩ := lastNlPos_pos_of_count2 _ hcount
    have hlt := lastNlPos_lt_length _ _ hi
    have hrunlen : ((c :: rest).takeWhile pyIsSpace).length ≤ (c :: rest).length := by
      have hsplit := congrArg List.length
        (List.takeWhile_append_dropWhile (p := pyIsSpace) (l := c :: rest))
      rw [List.length_append] at hsplit
      omega
    simp only [sepLen, hi]
    omega

theorem takeWhile_append_stop (p : Char → Bool) (x z : List Char)
    (hx : ∃ c ∈ x, p c = false) : (x ++ z).takeWhile p = x.takeWhile p := by
  induction x with
  | nil =>
    obtain ⟨c, hc, _⟩ := hx
    simp at hc
  | cons a t ih =>
    rw [List.cons_append, List.takeWhile_cons, List.takeWhile_cons]
    by_cases ha : p a = true
    · rw [if_pos ha, if_pos ha]
      obtain ⟨c, hc, hcp⟩ := hx
      rcases List.mem_cons.mp hc with rfl | hct
      · rw [ha] at hcp
        simp at hcp
      · rw [ih ⟨c, hct, hcp⟩]
    · rw [if_neg ha, if_neg ha]

theorem mem_of_getLast {α : Type} (l : List α) (c : α) (h : l.getLast? = some c) : c ∈ l := by
  induction l with
  | nil => simp at h
  | cons a t ih =>
    cases t with
    | nil =>
      have ha : a = c := by simpa using h
      subst ha
      simp
    | cons b t' =>
      rw [List.getLast?_cons_cons] at h
      exact List.mem_cons_of_mem a (ih h)

theorem takeWhile_nil_of_head (z : List Char)
    (hz : ∀ c, z.head? = some c → pyIsSpace c = false) :
    z.takeWhile pyIsSpace = [] := by
  cases z with
  | nil => rfl
  | cons a t =>
    rw [List.takeWhile_cons, if_neg (by simp [hz a rfl])]

theorem sepAt_drop_sepLen (x : List Char) (h : sepAt x = true) :
    sepAt (x.drop (sepLen x)) = false := by
  cases x with
  | nil => simp [sepAt] at h
  | cons c rest =>
    simp only [sepAt, Bool.and_eq_true, beq_iff_eq, decide_eq_true_eq] at h
    obtain ⟨hc, hcount⟩ := h
    obtain ⟨i, hi, h1⟩ := lastNlPos_pos_of_count2 _ hcount
    simp only [sepLen, hi]
    have hlt : i < ((c :: rest).takeWhile pyIsSpace).length := lastNlPos_lt_length _ _ hi
    have hsplit : (c :: rest).takeWhile pyIsSpace ++ (c :: rest).dropWhile pyIsSpace
        = c :: rest := List.takeWhile_append_dropWhile pyIsSpace (c :: rest)
    have hhead : (c :: rest)[i + 1]? ≠ some '\n' := by
      by_cases hcase : i + 1 < ((c :: rest).takeWhile pyIsSpace).length
      · have he : (c :: rest)[i + 1]? = ((c :: rest).takeWhile pyIsSpace)[i + 1]? := by
          conv_lhs => rw [← hsplit]
          rw [List.getElem?_append, if_pos hcase]
        rw [he]
        exact lastNlPos_last _ i hi (i + 1) (by omega)
      · have heq : ((c :: rest).takeWhile pyIsSpace).length ≤ i + 1 := by omega
        have he : (c :: rest)[i + 1]?
            = ((c :: rest).dropWhile pyIsSpace)[i + 1
                - ((c :: rest).takeWhile pyIsSpace).length]? := by
          conv_lhs => rw [← hsplit]
          rw [List.getElem?_append, if_neg (by omega)]
        have hz : i + 1 - ((c :: rest).takeWhile pyIsSpace).length = 0 := by omega
        rw [he, hz, ← List.head?_eq_getElem?]
        intro hcontra
        have := head_dropWhile_not pyIsSpace (c :: rest) '\n' hcontra
        simp [pyIsSpace] at this
    rw [← List.head?_drop] at hhead
    cases hd : (c :: rest).drop (i + 1) with
    | nil => rfl
    | cons d rest' =>
      rw [hd, List.head?_cons] at hhead
      have hdne : d ≠ '\n' := by
        intro hcontra
        exact hhead (by rw [hcontra])
      simp [sepAt, hdne]

theorem splitBlankGo_fuel_eq (fuel : Nat) :
    ∀ (fuel' : Nat) (cs acc : List Char), cs.length ≤ fuel → cs.length ≤ fuel' →
      splitBlankGo fuel cs acc = splitBlankGo fuel' cs acc := by
  induction fuel using Nat.strong_induction_on with
  | _ fuel ih =>
    intro fuel' cs acc h h'
    cases cs with
    | nil => cases fuel <;> cases fuel' <;> rfl
    | cons c rest =>
      simp only [List.length_cons] at h h'
      obtain ⟨f, rfl⟩ : ∃ f, fuel = f + 1 := ⟨fuel - 1, by omega⟩
      obtain ⟨f', rfl⟩ : ∃ f', fuel' = f' + 1 := ⟨fuel' - 1, by omega⟩
      simp only [splitBlankGo]
      by_cases hsep : sepAt (c :: rest) = true
      · rw [if_pos hsep, if_pos hsep]
        obtain ⟨h1, h2⟩ := sepLen_pos_le _ hsep
        simp only [List.length_cons] at h2
        congr 1
        apply ih f (by omega) f'
        · rw [List.length_drop]
          simp only [List.length_cons]
          omega
        · rw [List.length_drop]
          simp only [List.length_cons]
          omega
      · rw [if_neg hsep, if_neg hsep]
        exact ih f (by omega) f' rest (c :: acc) (by omega) (by omega)

theorem splitBlankGo_pieces (fuel : Nat) :
    ∀ (cs acc : List Char),
      (∀ i, i < acc.reverse.length → sepAt (acc.reverse.drop i ++ cs) = false) →
      ∀ q ∈ splitBlankGo fuel cs acc, noBlankSep q := by
  induction fuel with
  | zero =>
    intro cs acc hacc q hq
    cases cs with
    | nil =>
      simp only [splitBlankGo, List.mem_singleton] at hq
      subst hq
      intro i
      by_cases hi : i < acc.reverse.length
      · have := hacc i hi
        rw [List.append_nil] at this
        exact this
      · rw [List.drop_eq_nil_of_le (by omega)]
        rfl
    | cons c rest =>
      simp only [splitBlankGo, List.mem_singleton] at hq
      subst hq
      intro i
      by_cases hi : i < acc.reverse.length
      · exact sepAt_prefix_false _ _ (hacc i hi)
      · rw [List.drop_eq_nil_of_le (by omega)]
        rfl
  | succ fuel ih =>
    intro cs acc hacc q hq
    cases cs with
    | nil =>
      simp only [splitBlankGo, List.mem_singleton] at hq
      subst hq
      intro i
      by_cases hi : i < acc.reverse.length
      · have := hacc i hi
        rw [List.append_nil] at this
        exact this
      · rw [List.drop_eq_nil_of_le (by omega)]
        rfl
    | cons c rest =>
      simp only [splitBlankGo] at hq
      by_cases hsep : sepAt (c :: rest) = true
      · rw [if_pos hsep] at hq
        rcases List.mem_cons.mp hq with rfl | hq'
        · intro i
          by_cases hi : i < acc.reverse.length
          · exact sepAt_prefix_false _ _ (hacc i hi)
          · rw [List.drop_eq_nil_of_le (by omega)]
            rfl
        · refine ih _ [] ?_ q hq'
          intro i hi
          simp at hi
      · rw [if_neg hsep] at hq
        refine ih rest (c :: acc) ?_ q hq
        intro i hi
        rw [List.reverse_cons] at hi ⊢
        have hilen : i < acc.reverse.length + 1 := by
          simpa [List.length_append] using hi
        by_cases hlt : i < acc.reverse.length
        · rw [List.drop_append_of_le_length (by omega), List.append_assoc,
            List.singleton_append]
          exact hacc i hlt
        · have hieq : i = acc.reverse.length := by omega
          subst hieq
          rw [List.drop_append_of_le_length (le_refl _), List.drop_eq_nil_of_le (le_refl _),
            List.nil_append, List.singleton_append]
          simpa using hsep

theorem splitBlankGo_noSep (p : List Char) :
    ∀ (acc : List Char) (fuel : Nat), p.length ≤ fuel → noBlankSep p →
      splitBlankGo fuel p acc = [acc.reverse ++ p] := by
  induction p with
  | nil =>
    intro acc fuel _ _
    cases fuel <;> simp [splitBlankGo]
  | cons a p' ih =>
    intro acc fuel hf hns
    simp only [List.length_cons] at hf
    obtain ⟨f, rfl⟩ : ∃ f, fuel = f + 1 := ⟨fuel - 1, by omega⟩
    simp only [splitBlankGo]
    have h0 : sepAt (a :: p') = false := by
      have := hns 0
      rwa [List.drop_zero] at this
    rw [if_neg (by simp [h0])]
    have hns' : noBlankSep p' := by
      intro i
      have := hns (i + 1)
      rwa [List.drop_succ_cons] at this
    rw [ih (a :: acc) f (by omega) hns']
    simp

theorem splitBlankGo_through (p : List Char) :
    ∀ (z acc : List Char),
      (∃ c, p.getLast? = some c ∧ pyIsSpace c = false) →
      noBlankSep p →
      (∀ c, z.head? = some c → pyIsSpace c = false) →
      splitBlankGo (p ++ '\n' :: '\n' :: z).length (p ++ '\n' :: '\n' :: z) acc
        = (acc.reverse ++ p) :: splitBlankGo z.length z [] := by
  induction p with
  | nil =>
    intro z acc hlast _ _
    obtain ⟨c, hc, _⟩ := hlast
    simp at hc
  | cons a p' ih =>
    intro z acc hlast hns hz
    have hsep0 : sepAt ((a :: p') ++ '\n' :: '\n' :: z) = false := by
      by_cases ha : a = '\n'
      · have h0 : sepAt (a :: p') = false := by
          have := hns 0
          rwa [List.drop_zero] at this
        obtain ⟨c, hc, hcws⟩ := hlast
        have hcmem : c ∈ a :: p' := mem_of_getLast _ c hc
        have htw : ((a :: p') ++ '\n' :: '\n' :: z).takeWhile pyIsSpace
            = (a :: p').takeWhile pyIsSpace :=
          takeWhile_append_stop pyIsSpace _ _ ⟨c, hcmem, hcws⟩
        rw [List.cons_append] at htw
        rw [List.cons_append]
        simp only [sepAt] at h0 ⊢
        rw [htw]
        exact h0
      · rw [List.cons_append]
        simp [sepAt, ha]
    cases p' with
    | nil =>
      obtain ⟨c, hc, hcws⟩ := hlast
      have hca : a = c := by simpa using hc
      subst hca
      have ht : ('\n' :: '\n' :: z).takeWhile pyIsSpace = ['\n', '\n'] := by
        rw [List.takeWhile_cons, if_pos (by decide), List.takeWhile_cons, if_pos (by decide),
          takeWhile_nil_of_head z hz]
      have hsep : sepAt ('\n' :: '\n' :: z) = true := by
        simp only [sepAt, ht]
        decide
      have hslen : sepLen ('\n' :: '\n' :: z) = 2 := by
        simp only [sepLen, ht]
        rfl
      have hlen : (([a] ++ '\n' :: '\n' :: z)).length = (z.length + 2) + 1 := by
        simp
      rw [hlen]
      show splitBlankGo ((z.length + 2) + 1) (a :: '\n' :: '\n' :: z) acc = _
      simp only [splitBlankGo]
      rw [List.singleton_append] at hsep0
      rw [if_neg (by simp [hsep0]), if_pos hsep, hslen]
      have hdrop : ('\n' :: '\n' :: z).drop 2 = z := rfl
      rw [hdrop]
      congr 1
      · simp
      · exact splitBlankGo_fuel_eq (z.length + 1) z.length z [] (by omega) (le_refl _)
    | cons b t =>
      simp only [List.cons_append] at hsep0
      have hlast' : ∃ c, (b :: t).getLast? = some c ∧ pyIsSpace c = false := by
        obtain ⟨c, hc, hcws⟩ := hlast
        rw [List.getLast?_cons_cons] at hc
        exact ⟨c, hc, hcws⟩
      have hns' : noBlankSep (b :: t) := by
        intro i
        have := hns (i + 1)
        rwa [List.drop_succ_cons] at this
      have ihh := ih z (a :: acc) hlast' hns' hz
      simp only [List.cons_append] at ihh
      have hlen : ((a :: b :: t) ++ '\n' :: '\n' :: z).length
          = ((b :: (t ++ '\n' :: '\n' :: z)).length) + 1 := by
        simp
      rw [hlen]
      simp only [List.cons_append]
      simp only [splitBlankGo]
      rw [if_neg (by simp [hsep0])]
      simp only [splitBlankGo] at ihh
      rw [ihh]
      simp

theorem dedupeLoop_subset (l : List (List Char)) :
    ∀ (seen : List (List Char)), ∀ p ∈ dedupeLoop l seen, p ∈ l := by
  induction l with
  | nil =>
    intro seen p hp
    simp [dedupeLoop] at hp
  | cons q rest ih =>
    intro seen p hp
    simp only [dedupeLoop] at hp
    by_cases hk : dedupeKey q ∈ seen
    · rw [if_pos hk] at hp
      exact List.mem_cons_of_mem q (ih seen p hp)
    · rw [if_neg hk] at hp
      rcases List.mem_cons.mp hp with rfl | hp'
      · simp
      · exact List.mem_cons_of_mem q (ih _ p hp')

theorem dedupeLoop_notin_seen (l : List (List Char)) :
    ∀ (seen : List (List Char)), ∀ p ∈ dedupeLoop l seen, dedupeKey p ∉ seen := by
  induction l with
  | nil =>
    intro seen p hp
    simp [dedupeLoop] at hp
  | cons q rest ih =>
    intro seen p hp
    simp only [dedupeLoop] at hp
    by_cases hk : dedupeKey q ∈ seen
    · rw [if_pos hk] at hp
      exact ih seen p hp
    · rw [if_neg hk] at hp
      rcases List.mem_cons.mp hp with rfl | hp'
      · exact hk
      · have hn := ih _ p hp'
        intro hcontra
        exact hn (List.mem_cons_of_mem _ hcontra)

theorem dedupeLoop_keys_nodup (l : List (List Char)) :
    ∀ (seen : List (List Char)), ((dedupeLoop l seen).map dedupeKey).Nodup := by
  induction l with
  | nil =>
    intro seen
    simp [dedupeLoop]
  | cons q rest ih =>
    intro seen
    simp only [dedupeLoop]
    by_cases hk : dedupeKey q ∈ seen
    · rw [if_pos hk]
      exact ih seen
    · rw [if_neg hk]
      simp only [List.map_cons, List.nodup_cons]
      constructor
      · intro hcontra
        obtain ⟨p, hp, hkey⟩ := List.mem_map.mp hcontra
        have hn := dedupeLoop_notin_seen rest _ p hp
        exact hn (by rw [hkey]; exact List.mem_cons_self _ _)
      · exact ih _

theorem dedupeLoop_eq_self (l : List (List Char)) :
    ∀ (seen : List (List Char)), (∀ p ∈ l, dedupeKey p ∉ seen) →
      (l.map dedupeKey).Nodup → dedupeLoop l seen = l := by
  induction l with
  | nil =>
    intro seen _ _
    rfl
  | cons q rest ih =>
    intro seen hseen hnodup
    simp only [dedupeLoop]
    rw [if_neg (hseen q (by simp))]
    congr 1
    apply ih
    · intro p hp
      simp only [List.mem_cons]
      push_neg
      constructor
      · intro hcontra
        simp only [List.map_cons, List.nodup_cons] at hnodup
        exact hnodup.1 (by rw [← hcontra]; exact List.mem_map_of_mem _ hp)
      · exact hseen p (List.mem_cons_of_mem _ hp)
    · simp only [List.map_cons, List.nodup_cons] at hnodup
      exact hnodup.2

theorem joinSep_ne_nil (sep : List Char) (l : List (List Char)) (hl : l ≠ [])
    (hall : ∀ p ∈ l, p ≠ []) : joinSep sep l ≠ [] := by
  cases l with
  | nil => exact absurd rfl hl
  | cons p rest =>
    have hp := hall p (by simp)
    cases rest with
    | nil => exact hp
    | cons r rest' =>
      show p ++ sep ++ joinSep sep (r :: rest') ≠ []
      cases p with
      | nil => exact absurd rfl hp
      | cons x xs => simp

theorem joinSep_head (sep : List Char) (l : List (List Char)) (q : List Char)
    (hq : l.head? = some q) (hqne : q ≠ []) : (joinSep sep l).head? = q.head? := by
  cases l with
  | nil => simp at hq
  | cons p rest =>
    have hpq : p = q := by simpa using hq
    subst hpq
    cases rest with
    | nil => rfl
    | cons r rest' =>
      show (p ++ sep ++ joinSep sep (r :: rest')).head? = p.head?
      cases p with
      | nil => exact absurd rfl hqne
      | cons x xs => rfl

theorem joinSep_getLast (sep : List Char) (l : List (List Char)) :
    ∀ q, l.getLast? = some q → (∀ p ∈ l, p ≠ []) →
      (joinSep sep l).getLast? = q.getLast? := by
  induction l with
  | nil =>
    intro q hq _
    simp at hq
  | cons p rest ih =>
    intro q hq hall
    cases rest with
    | nil =>
      have hpq : p = q := by simpa using hq
      subst hpq
      rfl
    | cons r rest' =>
      rw [List.getLast?_cons_cons] at hq
      show (p ++ sep ++ joinSep sep (r :: rest')).getLast? = q.getLast?
      rw [getLast?_append_ne]
      · exact ih q hq (fun x hx => hall x (by simp [hx]))
      · exact joinSep_ne_nil sep (r :: rest') (by simp)
          (fun x hx => hall x (by simp [hx]))

theorem map_eq_self_of (f : List Char → List Char) (l : List (List Char))
    (h : ∀ p ∈ l, f p = p) : l.map f = l := by
  induction l with
  | nil => rfl
  | cons a rest ih =>
    rw [List.map_cons, h a (by simp), ih (fun p hp => h p (by simp [hp]))]

theorem splitBlank_joinSep (out : List (List Char)) :
    (∀ p ∈ out, p ≠ []) → (∀ p ∈ out, pyStrip p = p) → (∀ p ∈ out, noBlankSep p) →
      out ≠ [] → splitBlank (joinSep "\n\n".data out) = out := by
  induction out with
  | nil =>
    intro _ _ _ h
    exact absurd rfl h
  | cons q rest ih =>
    intro hne hstrip hnosep _
    cases rest with
    | nil =>
      show splitBlank q = [q]
      have h1 := splitBlankGo_noSep q [] q.length (le_refl _) (hnosep q (by simp))
      simpa [splitBlank] using h1
    | cons r rest' =>
      have hq_ns := hnosep q (by simp)
      have hqne := hne q (by simp)
      have hwq : noWsEnds q := (hstrip q (by simp)) ▸ noWsEnds_pyStrip q
      have hlast : ∃ c, q.getLast? = some c ∧ pyIsSpace c = false := by
        cases hql : q.getLast? with
        | none => exact absurd (List.getLast?_eq_none_iff.mp hql) hqne
        | some c => exact ⟨c, rfl, hwq.2 c hql⟩
      have hzhead : ∀ c, (joinSep "\n\n".data (r :: rest')).head? = some c →
          pyIsSpace c = false := by
        have hrne := hne r (by simp)
        have hwr : noWsEnds r := (hstrip r (by simp)) ▸ noWsEnds_pyStrip r
        intro c hc
        rw [joinSep_head "\n\n".data (r :: rest') r rfl hrne] at hc
        exact hwr.1 c hc
      have hjoin : joinSep "\n\n".data (q :: r :: rest')
          = q ++ '\n' :: '\n' :: joinSep "\n\n".data (r :: rest') := by
        show q ++ "\n\n".data ++ joinSep "\n\n".data (r :: rest') = _
        rw [List.append_assoc]
        rfl
      rw [hjoin]
      show splitBlankGo (q ++ '\n' :: '\n' :: joinSep "\n\n".data (r :: rest')).length
          (q ++ '\n' :: '\n' :: joinSep "\n\n".data (r :: rest')) [] = q :: r :: rest'
      rw [splitBlankGo_through q (joinSep "\n\n".data (r :: rest')) [] hlast hq_ns hzhead]
      have hrec : splitBlankGo (joinSep "\n\n".data (r :: rest')).length
          (joinSep "\n\n".data (r :: rest')) [] = r :: rest' :=
        ih (fun p hp => hne p (by simp [hp])) (fun p hp => hstrip p (by simp [hp]))
          (fun p hp => hnosep p (by simp [hp])) (by simp)
      rw [hrec]
      simp

theorem noWsEnds_joinSep (out : List (List Char)) (hempty : out ≠ [])
    (hne : ∀ p ∈ out, p ≠ []) (hstr : ∀ p ∈ out, pyStrip p = p) :
    noWsEnds (joinSep "\n\n".data out) := by
  cases out with
  | nil => exact absurd rfl hempty
  | cons o rest =>
    constructor
    · intro c hc
      rw [joinSep_head "\n\n".data (o :: rest) o rfl (hne o (by simp))] at hc
      exact ((hstr o (by simp)) ▸ noWsEnds_pyStrip o).1 c hc
    · intro c hc
      obtain ⟨g, hg⟩ : ∃ g, (o :: rest).getLast? = some g := by
        cases hgl : (o :: rest).getLast? with
        | none => exact absurd (List.getLast?_eq_none_iff.mp hgl) (by simp)
        | some g => exact ⟨g, rfl⟩
      have hgmem : g ∈ o :: rest := mem_of_getLast _ g hg
      rw [joinSep_getLast "\n\n".data (o :: rest) g hg hne] at hc
      exact ((hstr g hgmem) ▸ noWsEnds_pyStrip g).2 c hc

/-- Properties of the stripped, nonempty pieces that `dedupe_paragraphs`
extracts from a text: each is nonempty, already stripped, and contains no
blank-line separator. -/
theorem dedupe_paras_props (text : List Char) :
    ∀ p ∈ ((splitBlank text).map pyStrip).filter (fun p => !p.isEmpty),
      p ≠ [] ∧ pyStrip p = p ∧ noBlankSep p := by
  intro p hp
  obtain ⟨hmem, hne⟩ := List.mem_filter.mp hp
  obtain ⟨q, hq, rfl⟩ := List.mem_map.mp hmem
  have hq_ns : noBlankSep q :=
    splitBlankGo_pieces text.length text [] (by intro i hi; simp at hi) q hq
  have hpne : pyStrip q ≠ [] := by
    intro hcontra
    rw [hcontra] at hne
    simp at hne
  refine ⟨hpne, pyStrip_idem q, ?_⟩
  obtain ⟨a, b, hab⟩ := pyStrip_shape q
  have heq : a ++ (pyStrip q ++ b) = q := by
    rw [← List.append_assoc]
    exact hab.symm
  exact noBlankSep_of_parts a (pyStrip q) b (by rw [heq]; exact hq_ns)

/-- Claim C8: dedupe_paragraphs is idempotent: for every text string t,
dedupe_paragraphs(dedupe_paragraphs(t)) equals dedupe_paragraphs(t). -/
theorem claim_C8 (t : List Char) :
    dedupeParagraphs (dedupeParagraphs t) = dedupeParagraphs t := by
  have hprops := dedupe_paras_props t
  set paras := ((splitBlank t).map pyStrip).filter (fun p => !p.isEmpty) with hparas
  set out := dedupeLoop paras [] with hout
  have hd1 : dedupeParagraphs t = pyStrip (joinSep "\n\n".data out) := rfl
  have hout_sub : ∀ p ∈ out, p ∈ paras := dedupeLoop_subset paras []
  have hout_ne : ∀ p ∈ out, p ≠ [] := fun p hp => (hprops p (hout_sub p hp)).1
  have hout_str : ∀ p ∈ out, pyStrip p = p := fun p hp => (hprops p (hout_sub p hp)).2.1
  have hout_ns : ∀ p ∈ out, noBlankSep p := fun p hp => (hprops p (hout_sub p hp)).2.2
  have hkeys : (out.map dedupeKey).Nodup := dedupeLoop_keys_nodup paras []
  by_cases hempty : out = []
  · rw [hd1, hempty]
    rfl
  · have hjs : pyStrip (joinSep "\n\n".data out) = joinSep "\n\n".data out :=
      pyStrip_eq_of_noWsEnds _ (noWsEnds_joinSep out hempty hout_ne hout_str)
    have hsplit2 : splitBlank (joinSep "\n\n".data out) = out :=
      splitBlank_joinSep out hout_ne hout_str hout_ns hempty
    rw [hd1, hjs]
    show pyStrip (joinSep "\n\n".data (dedupeLoop
      (((splitBlank (joinSep "\n\n".data out)).map pyStrip).filter
        (fun p => !p.isEmpty)) [])) = joinSep "\n\n".data out
    rw [hsplit2, map_eq_self_of pyStrip out hout_str, filter_ne_nil_eq_self out hout_ne,
      dedupeLoop_eq_self out [] (fun p _ => by simp) hkeys, hjs]

/-- Claim C6: a section with the non-junk heading "Eligibility" whose
cleaned text (after strip_inline_junk, dedupe_paragraphs and whitespace
normalization) has exactly 79 characters is skipped and yields zero chunk
records, while an otherwise identical section whose cleaned text has
exactly 80 characters is kept and yields at least one chunk record. -/
theorem claim_C6 :
    sectionIsJunk "Eligibility".data
      "Applicants must hold a valid passport and provide proof of continuous residence".data
      = false ∧
    (cleanText (dedupeParagraphs (stripInlineJunk
      "Applicants must hold a valid passport and provide proof of continuous residence".data))).length
      = 79 ∧
    sectionChunkTexts "Eligibility".data
      "Applicants must hold a valid passport and provide proof of continuous residence".data
      = [] ∧
    sectionIsJunk "Eligibility".data
      "Applicants must hold a valid passport and provide proof of continuous residence.".data
      = false ∧
    (cleanText (dedupeParagraphs (stripInlineJunk
      "Applicants must hold a valid passport and provide proof of continuous residence.".data))).length
      = 80 ∧
    sectionChunkTexts "Eligibility".data
      "Applicants must hold a valid passport and provide proof of continuous residence.".data
      ≠ [] := by
  decide


-- -------------------------------------------------------------------
-- C3: chunk-id formation and uniqueness
-- -------------------------------------------------------------------

theorem digitVal_digitChar (k : Nat) (hk : k < 10) : digitVal (digitChar k) = k := by
  interval_cases k <;> rfl

theorem digitChar_digit (k : Nat) (hk : k < 10) : isDigitCh (digitChar k) = true := by
  interval_cases k <;> decide

theorem parseDigits_append_one (xs : List Char) (d : Char) :
    parseDigits (xs ++ [d]) = 10 * parseDigits xs + digitVal d := by
  show (xs ++ [d]).foldl (fun a c => 10 * a + digitVal c) 0
    = 10 * xs.foldl (fun a c => 10 * a + digitVal c) 0 + digitVal d
  rw [List.foldl_append]
  rfl

theorem parseDigits_replicate_zero (k : Nat) (xs : List Char) :
    parseDigits (List.replicate k '0' ++ xs) = parseDigits xs := by
  induction k with
  | zero => rfl
  | succ k ih =>
    rw [List.replicate_succ, List.cons_append]
    show (List.replicate k '0' ++ xs).foldl (fun a c => 10 * a + digitVal c)
      (10 * 0 + digitVal '0') = parseDigits xs
    have h0 : 10 * 0 + digitVal '0' = 0 := by decide
    rw [h0]
    exact ih

theorem parse_natDigitsGo (fuel : Nat) :
    ∀ n, n ≤ fuel → parseDigits (natDigitsGo fuel n) = n := by
  induction fuel with
  | zero =>
    intro n hn
    have h0 : n = 0 := Nat.le_zero.mp hn
    subst h0
    rfl
  | succ fuel ih =>
    intro n hn
    simp only [natDigitsGo]
    by_cases h10 : n < 10
    · rw [if_pos h10]
      have h1 : parseDigits [digitChar n] = 10 * 0 + digitVal (digitChar n) := rfl
      rw [h1, digitVal_digitChar n h10]
      omega
    · rw [if_neg h10]
      rw [parseDigits_append_one]
      have hdiv : n / 10 < n := Nat.div_lt_self (by omega) (by omega)
      rw [ih (n / 10) (by omega), digitVal_digitChar (n % 10) (Nat.mod_lt _ (by omega))]
      omega

theorem parse_fmt4 (n : Nat) : parseDigits (fmt4 n) = n := by
  simp only [fmt4]
  rw [parseDigits_replicate_zero]
  exact parse_natDigitsGo n n (Nat.le_refl n)

theorem fmt4_inj (a b : Nat) (h : fmt4 a = fmt4 b) : a = b := by
  have hp := congrArg parseDigits h
  rwa [parse_fmt4, parse_fmt4] at hp

theorem natDigitsGo_digits (fuel : Nat) :
    ∀ n c, c ∈ natDigitsGo fuel n → isDigitCh c = true := by
  induction fuel with
  | zero =>
    intro n c hc
    simp only [natDigitsGo, List.mem_singleton] at hc
    subst hc
    exact digitChar_digit (n % 10) (Nat.mod_lt _ (by omega))
  | succ fuel ih =>
    intro n c hc
    simp only [natDigitsGo] at hc
    by_cases h10 : n < 10
    · rw [if_pos h10] at hc
      simp only [List.mem_singleton] at hc
      subst hc
      exact digitChar_digit n h10
    · rw [if_neg h10] at hc
      rw [List.mem_append] at hc
      rcases hc with hc | hc
      · exact ih (n / 10) c hc
      · simp only [List.mem_singleton] at hc
        subst hc
        exact digitChar_digit (n % 10) (Nat.mod_lt _ (by omega))

theorem fmt4_digits (n : Nat) : ∀ c ∈ fmt4 n, isDigitCh c = true := by
  intro c hc
  simp only [fmt4, List.mem_append] at hc
  rcases hc with hc | hc
  · rw [List.eq_of_mem_replicate hc]
    decide
  · exact natDigitsGo_digits n n c hc

theorem hasDU_iff (l : List Char) : hasDU l = true ↔ ∃ x y, l = x ++ '_' :: '_' :: y := by
  constructor
  · intro h
    simp only [hasDU, List.any_eq_true] at h
    obtain ⟨i, hir, hpre⟩ := h
    rw [List.isPrefixOf_iff_prefix] at hpre
    obtain ⟨y, hy⟩ := hpre
    refine ⟨l.take i, y, ?_⟩
    conv_lhs => rw [← List.take_append_drop i l]
    rw [← hy]
    rfl
  · rintro ⟨x, y, rfl⟩
    simp only [hasDU, List.any_eq_true]
    refine ⟨x.length, ?_, ?_⟩
    · rw [List.mem_range]
      simp only [List.length_append, List.length_cons]
      omega
    · have hdrop := drop_append_len x ('_' :: '_' :: y) 0
      rw [Nat.add_zero, List.drop_zero] at hdrop
      rw [hdrop, List.isPrefixOf_iff_prefix]
      exact ⟨y, rfl⟩

theorem hasDU_tail (c : Char) (t : List Char) (h : hasDU (c :: t) = false) :
    hasDU t = false := by
  cases hb : hasDU t with
  | false => rfl
  | true =>
    obtain ⟨x, y, hxy⟩ := (hasDU_iff t).mp hb
    have h2 : hasDU (c :: t) = true := by
      refine (hasDU_iff _).mpr ⟨c :: x, y, ?_⟩
      rw [hxy, List.cons_append]
    rw [h] at h2
    exact absurd h2 Bool.false_ne_true

theorem hasDU_reverse_false (l : List Char) (h : hasDU l = false) :
    hasDU l.reverse = false := by
  cases hb : hasDU l.reverse with
  | false => rfl
  | true =>
    obtain ⟨x, y, hxy⟩ := (hasDU_iff _).mp hb
    have hl : l = y.reverse ++ '_' :: '_' :: x.reverse := by
      have h3 := congrArg List.reverse hxy
      rw [List.reverse_reverse] at h3
      rw [h3]
      simp [List.reverse_append, List.append_assoc]
    have h2 : hasDU l = true := (hasDU_iff l).mpr ⟨y.reverse, x.reverse, hl⟩
    rw [h] at h2
    exact absurd h2 Bool.false_ne_true

theorem hasDU_cons_false (c : Char) (l : List Char)
    (hl : hasDU l = false) (hc : c = '_' → l.head? ≠ some '_') :
    hasDU (c :: l) = false := by
  cases hb : hasDU (c :: l) with
  | false => rfl
  | true =>
    obtain ⟨x, y, hxy⟩ := (hasDU_iff _).mp hb
    cases x with
    | nil =>
      rw [List.nil_append] at hxy
      injection hxy with h1 h2
      exact absurd (show l.head? = some '_' by rw [h2]; rfl) (hc h1)
    | cons a x' =>
      rw [List.cons_append] at hxy
      injection hxy with h1 h2
      have h3 : hasDU l = true := (hasDU_iff l).mpr ⟨x', y, h2⟩
      rw [hl] at h3
      exact absurd h3 Bool.false_ne_true

theorem hasDU_single (c : Char) : hasDU [c] = false := by
  cases hb : hasDU [c] with
  | false => rfl
  | true =>
    obtain ⟨x, y, hxy⟩ := (hasDU_iff _).mp hb
    have h2 := congrArg List.length hxy
    simp only [List.length_append, List.length_cons, List.length_nil] at h2
    omega

theorem hasDU_of_parts (a g b : List Char) (h : hasDU (a ++ g ++ b) = false) :
    hasDU g = false := by
  cases hb : hasDU g with
  | false => rfl
  | true =>
    obtain ⟨x, y, hxy⟩ := (hasDU_iff g).mp hb
    have h2 : hasDU (a ++ g ++ b) = true := by
      refine (hasDU_iff _).mpr ⟨a ++ x, y ++ b, ?_⟩
      rw [hxy]
      simp [List.append_assoc]
    rw [h] at h2
    exact absurd h2 Bool.false_ne_true

theorem getLast_cond_tail (a : Char) (t : List Char)
    (h : ∀ c, (a :: t).getLast? = some c → c ≠ '_') :
    ∀ c, t.getLast? = some c → c ≠ '_' := by
  intro c hc
  cases t with
  | nil => simp at hc
  | cons b s =>
    apply h c
    rw [List.getLast?_cons_cons]
    exact hc

theorem du_split_unique (a₁ : List Char) :
    ∀ b₁ a₂ b₂ : List Char,
    a₁ ++ '_' :: '_' :: b₁ = a₂ ++ '_' :: '_' :: b₂ →
    hasDU a₁ = false → hasDU a₂ = false →
    (∀ c, a₁.getLast? = some c → c ≠ '_') →
    (∀ c, a₂.getLast? = some c → c ≠ '_') →
    a₁ = a₂ ∧ b₁ = b₂ := by
  induction a₁ with
  | nil =>
    intro b₁ a₂ b₂ h hd₁ hd₂ hl₁ hl₂
    cases a₂ with
    | nil =>
      rw [List.nil_append, List.nil_append] at h
      injection h with h1 h2
      injection h2 with h3 h4
      exact ⟨rfl, h4⟩
    | cons c t =>
      rw [List.nil_append, List.cons_append] at h
      injection h with h1 h2
      cases t with
      | nil => exact absurd h1.symm (hl₂ c rfl)
      | cons d t' =>
        rw [List.cons_append] at h2
        injection h2 with h3 h4
        have hdu : hasDU (c :: d :: t') = true := by
          refine (hasDU_iff _).mpr ⟨[], t', ?_⟩
          rw [← h1, ← h3]
          rfl
        rw [hd₂] at hdu
        exact absurd hdu Bool.false_ne_true
  | cons e t ih =>
    intro b₁ a₂ b₂ h hd₁ hd₂ hl₁ hl₂
    cases a₂ with
    | nil =>
      rw [List.nil_append, List.cons_append] at h
      injection h with h1 h2
      cases t with
      | nil => exact absurd h1 (hl₁ e rfl)
      | cons d t' =>
        rw [List.cons_append] at h2
        injection h2 with h3 h4
        have hdu : hasDU (e :: d :: t') = true := by
          refine (hasDU_iff _).mpr ⟨[], t', ?_⟩
          rw [h1, h3]
          rfl
        rw [hd₁] at hdu
        exact absurd hdu Bool.false_ne_true
    | cons f s =>
      rw [List.cons_append, List.cons_append] at h
      injection h with h1 h2
      obtain ⟨ht, hb⟩ := ih b₁ s b₂ h2 (hasDU_tail e t hd₁) (hasDU_tail f s hd₂)
          (getLast_cond_tail e t hl₁) (getLast_cond_tail f s hl₂)
      rw [h1, ht, hb]
      exact ⟨rfl, rfl⟩

theorem takeDropWhile_append_all (p : Char → Bool) (xs : List Char) (y : Char)
    (ys : List Char) (hall : ∀ x ∈ xs, p x = true) (hy : p y = false) :
    (xs ++ y :: ys).takeWhile p = xs ∧ (xs ++ y :: ys).dropWhile p = y :: ys := by
  induction xs with
  | nil =>
    rw [List.nil_append]
    constructor
    · rw [List.takeWhile_cons, if_neg (by simp [hy])]
    · rw [List.dropWhile_cons, if_neg (by simp [hy])]
  | cons a t ih =>
    have ha := hall a (by simp)
    obtain ⟨ih1, ih2⟩ := ih (fun x hx => hall x (by simp [hx]))
    rw [List.cons_append]
    constructor
    · rw [List.takeWhile_cons, if_pos ha, ih1]
    · rw [List.dropWhile_cons, if_pos ha, ih2]

theorem squeezeRuns_head (t d : Char) (rest : List Char) :
    (squeezeRuns t (d :: rest)).head? = some d := by
  induction rest generalizing d with
  | nil => rfl
  | cons e r ih =>
    simp only [squeezeRuns]
    by_cases h : d = t ∧ e = t
    · rw [if_pos h, ih e, h.1, h.2]
    · rw [if_neg h]
      rfl

theorem squeezeRuns_noDU (m : List Char) : hasDU (squeezeRuns '_' m) = false := by
  induction m with
  | nil => decide
  | cons c rest ih =>
    cases rest with
    | nil => exact hasDU_single c
    | cons d r =>
      simp only [squeezeRuns]
      by_cases h : c = '_' ∧ d = '_'
      · rw [if_pos h]
        exact ih
      · rw [if_neg h]
        apply hasDU_cons_false
        · exact ih
        · intro hc hhead
          rw [squeezeRuns_head] at hhead
          exact h ⟨hc, Option.some_inj.mp hhead⟩

theorem stripChar_shape (t : Char) (cs : List Char) :
    ∃ a b, cs = a ++ stripChar t cs ++ b := by
  obtain ⟨a, ha⟩ := dropWhile_shape (fun c => c == t) cs
  obtain ⟨b, hb⟩ := dropWhile_shape (fun c => c == t)
      (cs.dropWhile (fun c => c == t)).reverse
  refine ⟨a, b.reverse, ?_⟩
  have h2 : cs.dropWhile (fun c => c == t)
      = ((cs.dropWhile (fun c => c == t)).reverse.dropWhile (fun c => c == t)).reverse
        ++ b.reverse := by
    have h3 := congrArg List.reverse hb
    rw [List.reverse_reverse, List.reverse_append] at h3
    exact h3
  conv_lhs => rw [ha, h2]
  simp [stripChar, List.append_assoc]

theorem head_stripChar (t : Char) (cs : List Char) (c : Char)
    (h : (stripChar t cs).head? = some c) : c ≠ t := by
  obtain ⟨a, ha⟩ := dropWhile_shape (fun x => x == t)
      (cs.dropWhile (fun x => x == t)).reverse
  have hd : cs.dropWhile (fun x => x == t) = stripChar t cs ++ a.reverse := by
    have h3 := congrArg List.reverse ha
    rw [List.reverse_reverse, List.reverse_append] at h3
    exact h3
  cases hsc : stripChar t cs with
  | nil =>
    rw [hsc] at h
    simp at h
  | cons c₀ s₀ =>
    rw [hsc] at h
    have hc0 : c₀ = c := Option.some_inj.mp h
    have hq : (fun x => x == t) c₀ = false := by
      apply head_dropWhile_not (fun x => x == t) cs c₀
      rw [hd, hsc]
      rfl
    subst hc0
    intro hct
    rw [hct] at hq
    simp at hq

theorem last_stripChar (t : Char) (cs : List Char) (c : Char)
    (h : (stripChar t cs).getLast? = some c) : c ≠ t := by
  have hrev : (stripChar t cs).reverse =
      (cs.dropWhile (fun x => x == t)).reverse.dropWhile (fun x => x == t) :=
    List.reverse_reverse _
  have hh : ((cs.dropWhile (fun x => x == t)).reverse.dropWhile
      (fun x => x == t)).head? = some c := by
    rw [← hrev, List.head?_reverse]
    exact h
  have hq := head_dropWhile_not (fun x => x == t)
      (cs.dropWhile (fun x => x == t)).reverse c hh
  intro hct
  rw [hct] at hq
  simp at hq

theorem slugOK_slugify (s : List Char) : slugOK (slugify s) := by
  show slugOK (if (stripChar '_' (squeezeRuns '_'
      ((s.map pyLower).map (fun c => if isSlugChar c then c else '_')))).isEmpty
    then "main".data
    else stripChar '_' (squeezeRuns '_'
      ((s.map pyLower).map (fun c => if isSlugChar c then c else '_'))))
  by_cases he : (stripChar '_' (squeezeRuns '_'
      ((s.map pyLower).map (fun c => if isSlugChar c then c else '_')))).isEmpty = true
  · rw [if_pos he]
    refine ⟨by decide, ?_, ?_, by decide⟩
    · intro c hc
      have h0 : ("main".data).head? = some 'm' := rfl
      rw [h0] at hc
      have h1 : c = 'm' := (Option.some_inj.mp hc).symm
      subst h1
      decide
    · intro c hc
      have h0 : ("main".data).getLast? = some 'n' := by decide
      rw [h0] at hc
      have h1 : c = 'n' := (Option.some_inj.mp hc).symm
      subst h1
      decide
  · rw [if_neg he]
    refine ⟨?_, ?_, ?_, ?_⟩
    · intro hnil
      exact he (by rw [hnil]; rfl)
    · intro c hc
      exact head_stripChar '_' _ c hc
    · intro c hc
      exact last_stripChar '_' _ c hc
    · have hsq := squeezeRuns_noDU
        ((s.map pyLower).map (fun c => if isSlugChar c then c else '_'))
      obtain ⟨a, b, hab⟩ := stripChar_shape '_' (squeezeRuns '_'
        ((s.map pyLower).map (fun c => if isSlugChar c then c else '_')))
      rw [hab] at hsq
      exact hasDU_of_parts a _ b hsq

theorem mkChunkId_reverse (sid g : List Char) (i : Nat) :
    (mkChunkId sid g i).reverse =
      (fmt4 i).reverse ++ '_' :: '_' :: (g.reverse ++ '_' :: '_' :: sid.reverse) := by
  have h2 : "__".data = ['_', '_'] := rfl
  simp only [mkChunkId, h2]
  simp [List.reverse_append, List.append_assoc]

theorem mkChunkId_inj (sid₁ g₁ sid₂ g₂ : List Char) (i₁ i₂ : Nat)
    (h₁ : slugOK g₁) (h₂ : slugOK g₂)
    (heq : mkChunkId sid₁ g₁ i₁ = mkChunkId sid₂ g₂ i₂) :
    sid₁ = sid₂ ∧ g₁ = g₂ ∧ i₁ = i₂ := by
  have hrev := congrArg List.reverse heq
  rw [mkChunkId_reverse, mkChunkId_reverse] at hrev
  have hsp₁ := takeDropWhile_append_all isDigitCh (fmt4 i₁).reverse '_'
      ('_' :: (g₁.reverse ++ '_' :: '_' :: sid₁.reverse))
      (fun x hx => fmt4_digits i₁ x (List.mem_reverse.mp hx)) (by decide)
  have hsp₂ := takeDropWhile_append_all isDigitCh (fmt4 i₂).reverse '_'
      ('_' :: (g₂.reverse ++ '_' :: '_' :: sid₂.reverse))
      (fun x hx => fmt4_digits i₂ x (List.mem_reverse.mp hx)) (by decide)
  have htake : (fmt4 i₁).reverse = (fmt4 i₂).reverse := by
    rw [← hsp₁.1, ← hsp₂.1, hrev]
  have hi : i₁ = i₂ := fmt4_inj i₁ i₂ (List.reverse_injective htake)
  have hdw : ('_' :: ('_' :: (g₁.reverse ++ '_' :: '_' :: sid₁.reverse)) : List Char)
      = '_' :: ('_' :: (g₂.reverse ++ '_' :: '_' :: sid₂.reverse)) := by
    rw [← hsp₁.2, ← hsp₂.2, hrev]
  have hmid : g₁.reverse ++ '_' :: '_' :: sid₁.reverse
      = g₂.reverse ++ '_' :: '_' :: sid₂.reverse := by
    rw [List.cons.injEq, List.cons.injEq] at hdw
    exact hdw.2.2
  have hgl₁ : ∀ c, (g₁.reverse).getLast? = some c → c ≠ '_' := by
    intro c hc
    rw [List.getLast?_reverse] at hc
    exact h₁.2.1 c hc
  have hgl₂ : ∀ c, (g₂.reverse).getLast? = some c → c ≠ '_' := by
    intro c hc
    rw [List.getLast?_reverse] at hc
    exact h₂.2.1 c hc
  obtain ⟨hg, hs⟩ := du_split_unique g₁.reverse sid₁.reverse g₂.reverse sid₂.reverse hmid
      (hasDU_reverse_false g₁ h₁.2.2.2) (hasDU_reverse_false g₂ h₂.2.2.2) hgl₁ hgl₂
  exact ⟨List.reverse_injective hs, List.reverse_injective hg, hi⟩

theorem nodup_flatMap_of {α β : Type} (l : List α) (f : α → List β)
    (h1 : ∀ x ∈ l, (f x).Nodup)
    (h2 : l.Pairwise (fun x y => ∀ b ∈ f x, b ∉ f y)) :
    (l.flatMap f).Nodup := by
  induction l with
  | nil => simp
  | cons a t ih =>
    rw [List.flatMap_cons a t f, List.nodup_append]
    obtain ⟨hrel, hpt⟩ := List.pairwise_cons.mp h2
    refine ⟨h1 a (by simp), ih (fun x hx => h1 x (by simp [hx])) hpt, ?_⟩
    intro b hb hbt
    rw [List.mem_flatMap] at hbt
    obtain ⟨y, hy, hby⟩ := hbt
    exact hrel y hy b hb hby

theorem docIds_nodup (d : PDoc)
    (hslug : (d.sections.map (fun sec => slugify sec.1)).Nodup) :
    (docChunkIds d).Nodup := by
  simp only [docChunkIds]
  apply nodup_flatMap_of
  · intro sec hsec
    refine List.Nodup.map_on ?_ (List.nodup_range _)
    intro x hx y hy hxy
    have h := mkChunkId_inj d.sourceId (slugify sec.1) d.sourceId (slugify sec.1)
        (x + 1) (y + 1) (slugOK_slugify _) (slugOK_slugify _) hxy
    exact Nat.succ_injective h.2.2
  · have hp := List.pairwise_map.mp hslug
    refine hp.imp ?_
    intro s₁ s₂ hne b hb₁ hb₂
    rw [List.mem_map] at hb₁ hb₂
    obtain ⟨k₁, hk₁, he₁⟩ := hb₁
    obtain ⟨k₂, hk₂, he₂⟩ := hb₂
    have h := mkChunkId_inj d.sourceId (slugify s₁.1) d.sourceId (slugify s₂.1)
        (k₁ + 1) (k₂ + 1) (slugOK_slugify _) (slugOK_slugify _) (he₁.trans he₂.symm)
    exact hne h.2.1

/-- C3: the claim fails.  With unique source ids, the chunk ids are not
unique across the output store when one document contains two distinct
section headings ("Fees!" and "Fees?") that slugify to the same string:
both sections emit the id `a__fees__0001`, because the 4-digit sequence
number restarts at 1 within every section. -/
theorem claim_C3_counterexample :
    (c3docs.map PDoc.sourceId).Nodup ∧ ¬ (corpusChunkIds c3docs).Nodup := by
  decide

/-- C3 (amended): every chunk id is formed as source id, double
underscore, slugified section heading, double underscore, 4-digit sequence
number starting at 1 within each section; the ids are unique across the
whole output store provided the source ids are pairwise distinct and,
within each document, no two sections' headings slugify to the same
string.  (The per-section counter restart makes ids collide as soon as
two distinct headings of one document share a slug, so that case is
excluded.) -/
theorem claim_C3_amended (docs : List PDoc)
    (hsid : (docs.map PDoc.sourceId).Nodup)
    (hslug : ∀ d ∈ docs, (d.sections.map (fun sec => slugify sec.1)).Nodup) :
    (corpusChunkIds docs).Nodup := by
  simp only [corpusChunkIds]
  apply nodup_flatMap_of
  · intro d hd
    exact docIds_nodup d (hslug d hd)
  · have hp := List.pairwise_map.mp hsid
    refine hp.imp ?_
    intro d₁ d₂ hne b hb₁ hb₂
    simp only [docChunkIds, List.mem_flatMap, List.mem_map] at hb₁ hb₂
    obtain ⟨s₁, hs₁, k₁, hk₁, he₁⟩ := hb₁
    obtain ⟨s₂, hs₂, k₂, hk₂, he₂⟩ := hb₂
    have h := mkChunkId_inj d₁.sourceId (slugify s₁.1) d₂.sourceId (slugify s₂.1)
        (k₁ + 1) (k₂ + 1) (slugOK_slugify _) (slugOK_slugify _) (he₁.trans he₂.symm)
    exact hne h.1

/-- Witness for the amended C3 on a concrete two-document corpus. -/
theorem claim_C3_amended_witness :
    (corpusChunkIds [⟨"a".data, [("Fees".data, "x".data)]⟩,
                     ⟨"b".data, [("Fees".data, "x".data)]⟩]).Nodup :=
  claim_C3_amended _ (by decide) (by decide)

-- -------------------------------------------------------------------
-- C9: service-box headings never start sections
-- -------------------------------------------------------------------

theorem flushCurrent_curHeading (st : ExtState) :
    (flushCurrent st).curHeading = st.curHeading := by
  simp only [flushCurrent]
  split_ifs <;> rfl

theorem flushCurrent_sections_sub (st : ExtState) :
    ∀ sec ∈ (flushCurrent st).sections, sec ∈ st.sections ∨ sec.1 = st.curHeading := by
  intro sec hsec
  simp only [flushCurrent] at hsec
  split_ifs at hsec
  · exact Or.inl hsec
  · rw [List.mem_append] at hsec
    rcases hsec with h | h
    · exact Or.inl h
    · right
      rw [List.mem_singleton] at h
      rw [h]

theorem elemStep_inv (inSB : Bool) (tag : List Char) (classes : List (List Char))
    (children : HDom) (st : ExtState) :
    ((elemStep inSB tag classes children st).curHeading = st.curHeading ∨
      (HEADING_TAGS.contains tag = true ∧ cleanText (getText children) ≠ [] ∧
        isSBHeading classes inSB = false ∧
        (elemStep inSB tag classes children st).curHeading = cleanText (getText children))) ∧
    ∀ sec ∈ (elemStep inSB tag classes children st).sections,
      sec ∈ st.sections ∨ sec.1 = st.curHeading := by
  simp only [elemStep]
  split_ifs with h1 h2 h3 h4 h5
  · exact ⟨Or.inl rfl, fun sec h => Or.inl h⟩
  · exact ⟨Or.inl rfl, fun sec h => Or.inl h⟩
  · constructor
    · right
      refine ⟨h1, ?_, ?_, rfl⟩
      · intro hnil
        exact h2 (by rw [hnil]; rfl)
      · exact Bool.eq_false_iff.mpr h3
    · intro sec h
      exact flushCurrent_sections_sub st sec h
  · exact ⟨Or.inl rfl, fun sec h => Or.inl h⟩
  · exact ⟨Or.inl rfl, fun sec h => Or.inl h⟩
  · exact ⟨Or.inl rfl, fun sec h => Or.inl h⟩

theorem walk_inv (d : HDom) : ∀ (inSB : Bool) (st : ExtState),
    ((walk inSB d st).curHeading = st.curHeading ∨
      (walk inSB d st).curHeading ∈ nonSBHeadings inSB d) ∧
    ∀ sec ∈ (walk inSB d st).sections,
      sec ∈ st.sections ∨ sec.1 = st.curHeading ∨ sec.1 ∈ nonSBHeadings inSB d := by
  induction d with
  | nil =>
    intro inSB st
    exact ⟨Or.inl rfl, fun sec hsec => Or.inl hsec⟩
  | txt s next ih =>
    intro inSB st
    exact ih inSB st
  | elem tag classes children next ihc ihn =>
    intro inSB st
    have hstep := elemStep_inv inSB tag classes children st
    have hc := ihc (inSB || isSBdiv tag classes) (elemStep inSB tag classes children st)
    have hn := ihn inSB (walk (inSB || isSBdiv tag classes) children
        (elemStep inSB tag classes children st))
    have hliftC : ∀ x, x ∈ nonSBHeadings (inSB || isSBdiv tag classes) children →
        x ∈ nonSBHeadings inSB (.elem tag classes children next) := by
      intro x hx
      have hin : x ∈ (if HEADING_TAGS.contains tag = true ∧
            cleanText (getText children) ≠ [] ∧ isSBHeading classes inSB = false
          then [cleanText (getText children)] else [])
          ++ nonSBHeadings (inSB || isSBdiv tag classes) children
          ++ nonSBHeadings inSB next := by
        rw [List.mem_append]
        left
        rw [List.mem_append]
        right
        exact hx
      exact hin
    have hliftN : ∀ x, x ∈ nonSBHeadings inSB next →
        x ∈ nonSBHeadings inSB (.elem tag classes children next) := by
      intro x hx
      have hin : x ∈ (if HEADING_TAGS.contains tag = true ∧
            cleanText (getText children) ≠ [] ∧ isSBHeading classes inSB = false
          then [cleanText (getText children)] else [])
          ++ nonSBHeadings (inSB || isSBdiv tag classes) children
          ++ nonSBHeadings inSB next := by
        rw [List.mem_append]
        right
        exact hx
      exact hin
    have hmemHere : (elemStep inSB tag classes children st).curHeading = st.curHeading ∨
        (elemStep inSB tag classes children st).curHeading
          ∈ nonSBHeadings inSB (.elem tag classes children next) := by
      rcases hstep.1 with h | ⟨ha, hb, hcnd, hd⟩
      · exact Or.inl h
      · right
        have hin : (elemStep inSB tag classes children st).curHeading
            ∈ (if HEADING_TAGS.contains tag = true ∧
                cleanText (getText children) ≠ [] ∧ isSBHeading classes inSB = false
              then [cleanText (getText children)] else [])
              ++ nonSBHeadings (inSB || isSBdiv tag classes) children
              ++ nonSBHeadings inSB next := by
          rw [if_pos ⟨ha, hb, hcnd⟩, hd]
          simp
        exact hin
    have hw : walk inSB (.elem tag classes children next) st =
        walk inSB next (walk (inSB || isSBdiv tag classes) children
          (elemStep inSB tag classes children st)) := rfl
    rw [hw]
    constructor
    · rcases hn.1 with h | h
      · rw [h]
        rcases hc.1 with h' | h'
        · rw [h']
          exact hmemHere
        · exact Or.inr (hliftC _ h')
      · exact Or.inr (hliftN _ h)
    · intro sec hsec
      rcases hn.2 sec hsec with h | h | h
      · rcases hc.2 sec h with h' | h' | h'
        · rcases hstep.2 sec h' with h'' | h''
          · exact Or.inl h''
          · exact Or.inr (Or.inl h'')
        · rcases hmemHere with hm | hm
          · rw [hm] at h'
            exact Or.inr (Or.inl h')
          · rw [← h'] at hm
            exact Or.inr (Or.inr hm)
        · exact Or.inr (Or.inr (hliftC _ h'))
      · rcases hc.1 with h' | h'
        · rw [h'] at h
          rcases hmemHere with hm | hm
          · rw [hm] at h
            exact Or.inr (Or.inl h)
          · rw [← h] at hm
            exact Or.inr (Or.inr hm)
        · rw [← h] at h'
          exact Or.inr (Or.inr (hliftC _ h'))
      · exact Or.inr (Or.inr (hliftN _ h))

theorem extractSections_headings (container : HDom) :
    ∀ sec ∈ extractSections container,
      sec.1 = "main".data ∨ sec.1 ∈ nonSBHeadings false container := by
  intro sec hsec
  simp only [extractSections] at hsec
  split_ifs at hsec with h1 h2
  · simp at hsec
  · rw [List.mem_singleton] at hsec
    left
    rw [hsec]
  · have hw := walk_inv container false ⟨[], "main".data, []⟩
    rcases flushCurrent_sections_sub _ sec hsec with h | h
    · rcases hw.2 sec h with h' | h' | h'
      · simp at h'
      · exact Or.inl h'
      · exact Or.inr h'
    · rcases hw.1 with h' | h'
      · rw [h'] at h
        exact Or.inl h
      · rw [← h] at h'
        exact Or.inr h'

/-- C9: an h1/h2/h3 heading element classified as a service-box heading
never starts a new section: processing it appends its cleaned text to
the current section's accumulated parts, leaving the emitted sections
and the open section's heading untouched (no flush); and every section
emitted by `extractSections` has heading `"main"` or the cleaned text of
a non-service-box heading element, so no emitted section's heading
originates inside a non-splitting service-box container. -/
theorem claim_C9 :
    (∀ (inSB : Bool) (tag : List Char) (classes : List (List Char))
        (children nxt : HDom) (st : ExtState),
        HEADING_TAGS.contains tag = true →
        (cleanText (getText children)).isEmpty = false →
        isSBHeading classes inSB = true →
        walk inSB (.elem tag classes children nxt) st =
          walk inSB nxt (walk (inSB || isSBdiv tag classes) children
            { st with curParts := st.curParts ++ [cleanText (getText children)] })) ∧
    (∀ (container : HDom) (sec : List Char × List Char),
        sec ∈ extractSections container →
        sec.1 = "main".data ∨ sec.1 ∈ nonSBHeadings false container) := by
  constructor
  · intro inSB tag classes children nxt st h1 h2 h3
    have hstep : elemStep inSB tag classes children st =
        { st with curParts := st.curParts ++ [cleanText (getText children)] } := by
      simp only [elemStep]
      rw [if_pos h1, if_neg (by simp [h2]), if_pos h3]
    show walk inSB nxt (walk (inSB || isSBdiv tag classes) children
        (elemStep inSB tag classes children st)) = _
    rw [hstep]
  · intro container sec hsec
    exact extractSections_headings container sec hsec

/-- Witness for C9: a concrete service-box-classified `h2` takes the
append-no-flush step, and the one section of a concrete container has a
legitimate heading. -/
theorem claim_C9_witness :
    (walk false (HDom.elem "h2".data ["c-service-box__heading".data]
        (HDom.txt "Boxed".data HDom.nil) HDom.nil) ⟨[], "main".data, []⟩ =
      walk false HDom.nil
        (walk (false || isSBdiv "h2".data ["c-service-box__heading".data])
          (HDom.txt "Boxed".data HDom.nil)
          { (⟨[], "main".data, []⟩ : ExtState) with curParts :=
              (⟨[], "main".data, []⟩ : ExtState).curParts ++
                [cleanText (getText (HDom.txt "Boxed".data HDom.nil))] })) ∧
    (("Visa".data, "Apply online today.".data).1 = "main".data ∨
      ("Visa".data, "Apply online today.".data).1 ∈ nonSBHeadings false cont9) :=
  ⟨claim_C9.1 false "h2".data ["c-service-box__heading".data]
      (HDom.txt "Boxed".data HDom.nil) HDom.nil ⟨[], "main".data, []⟩
      (by decide) (by decide) (by decide),
   claim_C9.2 cont9 ("Visa".data, "Apply online today.".data) (by decide)⟩
